import Mathlib

/-!
Shallow embedding of the sweep phase of the non-moving collector
(`rts/sm/NonMovingSweep.c`): segment classification, debug scrubbing,
sweep-list preparation and the sweep driver, together with proofs of the
specified properties.

Memory is modelled explicitly: a store maps segment addresses (`Nat`) to
segment records, and every intrusive singly-linked list (free, active,
filled, sweep) is a head pointer (`Option Nat`) threading through the
segments' `link` fields.  Fatal `ASSERT` failures are modelled by `Option`
(`none` = abort).  The layout accessors of `NonMoving.h` (block count,
mark-bit lookup, block lookup) are not part of the source tree; following
the spec (§3), a segment carries one bitmap entry and one block per block
index, a bitmap entry being `true` exactly when the mark byte is nonzero.
-/

namespace GhcSweep

/-- Classification outcome of sweeping one segment (`enum sweep_result`).
`SEGMENT_MIXED` renders the source's partially-filled case (placed on the
active list); the other two keep their source names. -/
inductive SweepResult where
  | SEGMENT_FREE
  | SEGMENT_MIXED
  | SEGMENT_FILLED
deriving DecidableEq, Repr

/-- A non-moving heap segment (`struct nonmoving_segment`).  `bitmap` has one
entry per block (`true` = mark byte nonzero = live); `blocks` holds the
payload bytes of each block; `link` is the intrusive list pointer (`none` =
NULL); addresses are natural numbers. -/
structure Segment where
  block_size : Nat
  bitmap : List Bool
  blocks : List (List Nat)
  next_free : Nat
  next_free_snap : Nat
  link : Option Nat
deriving DecidableEq, Repr

/-- The scan loop of `nonmoving_sweep_segment`: walks the bitmap entries
(`b :: rest`, current index `i`) carrying the `found_free`/`found_live`
flags and the segment being updated.  Returns `none` when the `ASSERT`s in
the `SEGMENT_FREE` branch fail (a fatal abort). -/
def sweepGo : List Bool → Nat → Bool → Bool → Segment → Option (SweepResult × Segment)
  | [], _, _, found_live, seg =>
    if found_live then some (.SEGMENT_FILLED, seg)
    else if seg.next_free = 0 ∧ seg.next_free_snap = 0 then some (.SEGMENT_FREE, seg)
    else none
  | b :: rest, i, found_free, found_live, seg =>
    let st :=
      if b then (found_free, true, seg)
      else if found_free then (found_free, found_live, seg)
      else (true, found_live, { seg with next_free := i, next_free_snap := i })
    if st.1 && st.2.1 then some (.SEGMENT_MIXED, st.2.2)
    else sweepGo rest (i + 1) st.1 st.2.1 st.2.2

/-- Embeds `nonmoving_sweep_segment`: classify a marked segment and
initialize the `next_free` indices, with early exit once both a free and a
live block have been seen. -/
def nonmoving_sweep_segment (seg : Segment) : Option (SweepResult × Segment) :=
  sweepGo seg.bitmap 0 false false seg

/-- Modelled from the spec (§4.3, for the refinement claim): the same scan
with no early exit, walking every block index to the end and only then
computing the flags. -/
def classifyScan : List Bool → Nat → Bool → Bool → Segment → Bool × Bool × Segment
  | [], _, ff, fl, seg => (ff, fl, seg)
  | b :: rest, i, ff, fl, seg =>
    if b then classifyScan rest (i + 1) ff true seg
    else if ff then classifyScan rest (i + 1) ff fl seg
    else classifyScan rest (i + 1) true fl { seg with next_free := i, next_free_snap := i }

/-- Modelled from the spec (§4.3): reference classification that scans every
block index to the end, then classifies from the two flags. -/
def classifyRef (seg : Segment) : SweepResult × Segment :=
  let r := classifyScan seg.bitmap 0 false false seg
  if r.1 && r.2.1 then (.SEGMENT_MIXED, r.2.2)
  else if r.2.1 then (.SEGMENT_FILLED, r.2.2)
  else (.SEGMENT_FREE, r.2.2)

/-- Embeds `clear_segment` (DEBUG builds): `memset` from `&seg->bitmap` to
the end of the segment, i.e. every bitmap byte and every payload byte
becomes zero (spec §3 layout: the bitmap is the last header field, followed
by the blocks). -/
def clear_segment (seg : Segment) : Segment :=
  { seg with
    bitmap := seg.bitmap.map (fun _ => false),
    blocks := seg.blocks.map (fun b => b.map (fun _ => 0)) }

/-- The loop of `clear_segment_free_blocks`: for each block index below the
block count (the bitmap length), zero the block's bytes when its mark bit is
unset. -/
def clearFreeGo : List Bool → List (List Nat) → List (List Nat)
  | _, [] => []
  | [], bs => bs
  | m :: ms, b :: bs => (if m then b else b.map (fun _ => 0)) :: clearFreeGo ms bs

/-- Embeds `clear_segment_free_blocks` (DEBUG builds): after mark, a clear
mark bit means dead, so the block's payload is zeroed. -/
def clear_segment_free_blocks (seg : Segment) : Segment :=
  { seg with blocks := clearFreeGo seg.bitmap seg.blocks }

/-- Per size class allocator (`struct nonmoving_allocator`): heads of the
active and filled lists. -/
structure Allocator where
  active : Option Nat
  filled : Option Nat
deriving DecidableEq, Repr

/-- Modelled from the spec (§6): the layout constants `NONMOVING_ALLOCA_CNT`
(number of size classes) and `NONMOVING_ALLOCA0` (class of the smallest
block size) live in `NonMoving.h`; they are fixed configuration here. -/
structure Config where
  allocaCnt : Nat
  alloca0 : Nat

/-- The heap registry (`struct nonmoving_heap` plus the segment store):
allocators indexed by size class, the global free list head and the
transient sweep list head. -/
structure Heap where
  store : Nat → Segment
  allocators : Nat → Allocator
  free : Option Nat
  sweep_list : Option Nat

/-- The allocator index of a segment: `seg->block_size - NONMOVING_ALLOCA0`. -/
def allocIdx (cfg : Config) (seg : Segment) : Nat :=
  seg.block_size - cfg.alloca0

/-- Embeds `push_free_segment`: `seg->link = nonmoving_heap.free;
nonmoving_heap.free = seg;`. -/
def push_free_segment (a : Nat) (h : Heap) : Heap :=
  { h with
    store := Function.update h.store a { h.store a with link := h.free },
    free := some a }

/-- Embeds `push_active_segment`: push onto the active list of the
segment's own size class. -/
def push_active_segment (cfg : Config) (a : Nat) (h : Heap) : Heap :=
  let i := allocIdx cfg (h.store a)
  { h with
    store := Function.update h.store a { h.store a with link := (h.allocators i).active },
    allocators := Function.update h.allocators i { h.allocators i with active := some a } }

/-- Embeds `push_filled_segment`: push onto the filled list of the
segment's own size class. -/
def push_filled_segment (cfg : Config) (a : Nat) (h : Heap) : Heap :=
  let i := allocIdx cfg (h.store a)
  { h with
    store := Function.update h.store a { h.store a with link := (h.allocators i).filled },
    allocators := Function.update h.allocators i { h.allocators i with filled := some a } }

/-- The `while (filled->link) filled = filled->link;` walk of
`prepare_sweep`: find the last segment of a chain, with fuel bounding the
number of link steps (`none` = the walk does not terminate within `fuel`
steps). -/
def findTail (store : Nat → Segment) : Nat → Nat → Option Nat
  | a, fuel =>
    match (store a).link with
    | none => some a
    | some b =>
      match fuel with
      | 0 => none
      | fuel + 1 => findTail store b fuel

/-- One iteration of the `prepare_sweep` loop for allocator `idx`: take
ownership of its filled list, and if non-empty splice it onto the front of
the global sweep list (the spliced list's tail gets the old sweep head as
link). -/
def spliceFilled (fuel : Nat) (h : Heap) (idx : Nat) : Option Heap :=
  let alloc := h.allocators idx
  let h1 : Heap :=
    { h with allocators := Function.update h.allocators idx { alloc with filled := none } }
  match alloc.filled with
  | none => some h1
  | some fh =>
    match findTail h1.store fh fuel with
    | none => none
    | some tl =>
      some { h1 with
        store := Function.update h1.store tl { h1.store tl with link := h1.sweep_list },
        sweep_list := some fh }

/-- Embeds `prepare_sweep`: `ASSERT(nonmoving_heap.sweep_list == NULL)`
(`none` on violation), then move every allocator's filled list into the
sweep list, in ascending allocator order. -/
def prepare_sweep (cfg : Config) (fuel : Nat) (h : Heap) : Option Heap :=
  if h.sweep_list = none then
    (List.range cfg.allocaCnt).foldlM (fun hh idx => spliceFilled fuel hh idx) h
  else none

/-- The body of the sweep loop once the popped segment's address `a` is in
hand and the sweep head has already been advanced: classify, then re-file
onto the matching list, with the DEBUG-only scrubbing (`IF_DEBUG(sanity,…)`)
gated by the `debug` flag. -/
def sweepStep (cfg : Config) (debug : Bool) (h : Heap) (a : Nat) : Option Heap :=
  match nonmoving_sweep_segment (h.store a) with
  | none => none
  | some (res, seg1) =>
    let h1 : Heap := { h with store := Function.update h.store a seg1 }
    match res with
    | .SEGMENT_FREE =>
      let h2 := push_free_segment a h1
      some (if debug then
        { h2 with store := Function.update h2.store a (clear_segment (h2.store a)) }
      else h2)
    | .SEGMENT_MIXED =>
      let h2 := push_active_segment cfg a h1
      some (if debug then
        { h2 with store := Function.update h2.store a (clear_segment_free_blocks (h2.store a)) }
      else h2)
    | .SEGMENT_FILLED => some (push_filled_segment cfg a h1)

/-- The `while (nonmoving_heap.sweep_list)` loop of `nonmoving_sweep`: pop
the head segment, advance the sweep head to its link (before re-filing
overwrites the link field), then classify and re-file.  Fuel bounds the
number of iterations (`none` = not finished within `fuel` pops). -/
def nonmoving_sweep_loop (cfg : Config) (debug : Bool) : Nat → Heap → Option Heap
  | 0, h =>
    match h.sweep_list with
    | none => some h
    | some _ => none
  | fuel + 1, h =>
    match h.sweep_list with
    | none => some h
    | some a =>
      let h1 : Heap := { h with sweep_list := (h.store a).link }
      match sweepStep cfg debug h1 a with
      | none => none
      | some h2 => nonmoving_sweep_loop cfg debug fuel h2

/-- Embeds `nonmoving_sweep`: prepare the sweep list, then sweep it empty. -/
def nonmoving_sweep (cfg : Config) (debug : Bool) (pfuel fuel : Nat) (h : Heap) : Option Heap :=
  match prepare_sweep cfg pfuel h with
  | none => none
  | some h1 => nonmoving_sweep_loop cfg debug fuel h1

/-- Fuel-free companion of the sweep loop: process exactly the addresses of
`addrs` in order, the sweep head tracking the not-yet-processed suffix.
When the initial sweep list is the chain `addrs`, the loop agrees with this
fold, so each address is popped exactly once. -/
def sweepList (cfg : Config) (debug : Bool) : List Nat → Heap → Option Heap
  | [], h => some h
  | a :: rest, h =>
    match sweepStep cfg debug { h with sweep_list := rest.head? } a with
    | none => none
    | some h2 => sweepList cfg debug rest h2

/-- Chain predicate for the intrusive lists: `isChainSeg store hd l tl`
says that starting from head pointer `hd` and following `link` fields one
traverses exactly the addresses of `l` and ends at pointer `tl`. -/
def isChainSeg (store : Nat → Segment) : Option Nat → List Nat → Option Nat → Prop
  | hd, [], tl => hd = tl
  | hd, a :: rest, tl => hd = some a ∧ isChainSeg store (store a).link rest tl

/-- A nil-terminated chain. -/
def isChain (store : Nat → Segment) (hd : Option Nat) (l : List Nat) : Prop :=
  isChainSeg store hd l none

/-! Lemmas about the classification scan. -/

theorem classifyScan_fst (bits : List Bool) :
    ∀ i ff fl seg, (classifyScan bits i ff fl seg).1 = (ff || bits.any fun b => !b) := by
  induction bits with
  | nil => intro i ff fl seg; simp [classifyScan]
  | cons b rest ih =>
    intro i ff fl seg
    cases b <;> cases ff <;> simp [classifyScan, ih]

theorem classifyScan_snd (bits : List Bool) :
    ∀ i ff fl seg, (classifyScan bits i ff fl seg).2.1 = (fl || bits.any fun b => b) := by
  induction bits with
  | nil => intro i ff fl seg; simp [classifyScan]
  | cons b rest ih =>
    intro i ff fl seg
    cases b <;> cases ff <;> simp [classifyScan, ih]

theorem classifyScan_seg_of_ff (bits : List Bool) :
    ∀ i fl seg, (classifyScan bits i true fl seg).2.2 = seg := by
  induction bits with
  | nil => intro i fl seg; simp [classifyScan]
  | cons b rest ih =>
    intro i fl seg
    cases b <;> simp [classifyScan, ih]

theorem classifyScan_seg_of_fst_false (bits : List Bool) :
    ∀ i fl seg, (classifyScan bits i false fl seg).1 = false →
      (classifyScan bits i false fl seg).2.2 = seg := by
  induction bits with
  | nil => intro i fl seg _; simp [classifyScan]
  | cons b rest ih =>
    intro i fl seg hfst
    cases b with
    | true => simpa [classifyScan] using ih (i + 1) true seg (by simpa [classifyScan] using hfst)
    | false =>
      exfalso
      have h1 : (classifyScan (false :: rest) i false fl seg).1 = true := by
        simp [classifyScan, classifyScan_fst]
      rw [hfst] at h1
      exact Bool.false_ne_true h1

theorem classifyScan_first_unset (bits : List Bool) :
    ∀ i fl seg, (classifyScan bits i false fl seg).1 = true →
      ∃ k, k < bits.length ∧ bits.getD k true = false ∧
        (∀ j, j < k → bits.getD j false = true) ∧
        (classifyScan bits i false fl seg).2.2.next_free = i + k ∧
        (classifyScan bits i false fl seg).2.2.next_free_snap = i + k := by
  induction bits with
  | nil => intro i fl seg h; simp [classifyScan] at h
  | cons b rest ih =>
    intro i fl seg hfst
    cases b with
    | true =>
      have hrec : (classifyScan (true :: rest) i false fl seg) =
          classifyScan rest (i + 1) false true seg := by simp [classifyScan]
      rw [hrec] at hfst ⊢
      obtain ⟨k, hk, hunset, hset, hnf, hsnap⟩ := ih (i + 1) true seg hfst
      refine ⟨k + 1, by simpa using hk, by simpa using hunset, ?_, ?_, ?_⟩
      · intro j hj
        cases j with
        | zero => simp
        | succ j => exact hset j (by omega)
      · rw [hnf]; omega
      · rw [hsnap]; omega
    | false =>
      have hrec : (classifyScan (false :: rest) i false fl seg) =
          classifyScan rest (i + 1) true fl
            { seg with next_free := i, next_free_snap := i } := by simp [classifyScan]
      rw [hrec]
      rw [classifyScan_seg_of_ff]
      exact ⟨0, by simp, by simp, by omega, by simp, by simp⟩

theorem classifyScan_frame (bits : List Bool) :
    ∀ i ff fl seg,
      (classifyScan bits i ff fl seg).2.2.bitmap = seg.bitmap ∧
      (classifyScan bits i ff fl seg).2.2.blocks = seg.blocks ∧
      (classifyScan bits i ff fl seg).2.2.block_size = seg.block_size ∧
      (classifyScan bits i ff fl seg).2.2.link = seg.link := by
  induction bits with
  | nil => intro i ff fl seg; simp [classifyScan]
  | cons b rest ih =>
    intro i ff fl seg
    cases b <;> cases ff <;> simp [classifyScan, ih]

/-- The early-exit scan agrees with the full scan: whatever the full scan's
flags and segment are, the early-exit scan returns the matching
classification of that very data (with `none` exactly when the FREE-case
assertions fail). -/
theorem sweepGo_eq_scan (bits : List Bool) :
    ∀ i ff fl seg, (ff && fl) = false →
      sweepGo bits i ff fl seg =
        (if (classifyScan bits i ff fl seg).1 && (classifyScan bits i ff fl seg).2.1 then
          some (.SEGMENT_MIXED, (classifyScan bits i ff fl seg).2.2)
        else if (classifyScan bits i ff fl seg).2.1 then
          some (.SEGMENT_FILLED, (classifyScan bits i ff fl seg).2.2)
        else if (classifyScan bits i ff fl seg).2.2.next_free = 0 ∧
            (classifyScan bits i ff fl seg).2.2.next_free_snap = 0 then
          some (.SEGMENT_FREE, (classifyScan bits i ff fl seg).2.2)
        else none) := by
  induction bits with
  | nil =>
    intro i ff fl seg h
    cases ff <;> cases fl <;> simp_all [sweepGo, classifyScan]
  | cons b rest ih =>
    intro i ff fl seg h
    cases b with
    | true =>
      cases ff with
      | true =>
        have hfl : fl = false := by cases fl <;> simp_all
        subst hfl
        simp [sweepGo, classifyScan, classifyScan_fst, classifyScan_snd,
          classifyScan_seg_of_ff]
      | false =>
        have hrec : ∀ fl' seg', classifyScan (true :: rest) i false fl' seg' =
            classifyScan rest (i + 1) false true seg' := by
          intro fl' seg'; simp [classifyScan]
        rw [hrec]
        simpa [sweepGo] using ih (i + 1) false true seg (by simp)
    | false =>
      cases ff with
      | true =>
        have hfl : fl = false := by cases fl <;> simp_all
        subst hfl
        have hrec : classifyScan (false :: rest) i true false seg =
            classifyScan rest (i + 1) true false seg := by simp [classifyScan]
        rw [hrec]
        simpa [sweepGo] using ih (i + 1) true false seg (by simp)
      | false =>
        cases fl with
        | true =>
          simp [sweepGo, classifyScan, classifyScan_fst, classifyScan_snd,
            classifyScan_seg_of_ff]
        | false =>
          have hrec : classifyScan (false :: rest) i false false seg =
              classifyScan rest (i + 1) true false
                { seg with next_free := i, next_free_snap := i } := by
            simp [classifyScan]
          rw [hrec]
          simpa [sweepGo] using ih (i + 1) true false
            { seg with next_free := i, next_free_snap := i } (by simp)

/-- Characterization of a successful classification: the returned segment is
the full scan's segment, and the result is decided by the two flags "some
bit unset" / "some bit set". -/
theorem sweep_segment_inv (seg : Segment) (res : SweepResult) (seg' : Segment)
    (hres : nonmoving_sweep_segment seg = some (res, seg')) :
    seg' = (classifyScan seg.bitmap 0 false false seg).2.2 ∧
    res = (if (seg.bitmap.any fun b => !b) && (seg.bitmap.any fun b => b) then
            SweepResult.SEGMENT_MIXED
          else if seg.bitmap.any fun b => b then SweepResult.SEGMENT_FILLED
          else SweepResult.SEGMENT_FREE) := by
  have heq := sweepGo_eq_scan seg.bitmap 0 false false seg (by simp)
  simp only [nonmoving_sweep_segment] at hres
  rw [heq, classifyScan_fst, classifyScan_snd] at hres
  simp only [Bool.false_or] at hres
  cases hff : (seg.bitmap.any fun b => !b) <;> cases hfl : (seg.bitmap.any fun b => b) <;>
      simp only [hff, hfl, Bool.and_self, Bool.and_false, Bool.false_and, Bool.and_true,
        Bool.true_and, if_true, if_false, Bool.false_eq_true, Bool.true_eq_false] at hres ⊢
  · split at hres
    · obtain ⟨h1, h2⟩ := Prod.mk.injEq .. ▸ Option.some.inj hres
      exact ⟨h2.symm, h1.symm⟩
    · exact absurd hres (by simp)
  · obtain ⟨h1, h2⟩ := Prod.mk.injEq .. ▸ Option.some.inj hres
    exact ⟨h2.symm, h1.symm⟩
  · split at hres
    · obtain ⟨h1, h2⟩ := Prod.mk.injEq .. ▸ Option.some.inj hres
      exact ⟨h2.symm, h1.symm⟩
    · exact absurd hres (by simp)
  · obtain ⟨h1, h2⟩ := Prod.mk.injEq .. ▸ Option.some.inj hres
    exact ⟨h2.symm, h1.symm⟩

/-- Classification only updates the next-free cursors: bitmap, payload,
block size and link of the returned segment are those of the input. -/
theorem sweep_segment_frame (seg : Segment) (res : SweepResult) (seg' : Segment)
    (hres : nonmoving_sweep_segment seg = some (res, seg')) :
    seg'.bitmap = seg.bitmap ∧ seg'.blocks = seg.blocks ∧
    seg'.block_size = seg.block_size ∧ seg'.link = seg.link := by
  obtain ⟨h1, -⟩ := sweep_segment_inv seg res seg' hres
  subst h1
  exact classifyScan_frame seg.bitmap 0 false false seg

/-- On a segment with at least one block, classification never hits the
fatal `ASSERT`s: it returns a result. -/
theorem sweep_segment_total (seg : Segment) (hne : seg.bitmap ≠ []) :
    ∃ res seg', nonmoving_sweep_segment seg = some (res, seg') := by
  have heq := sweepGo_eq_scan seg.bitmap 0 false false seg (by simp)
  simp only [nonmoving_sweep_segment]
  rw [heq, classifyScan_fst, classifyScan_snd]
  simp only [Bool.false_or]
  obtain ⟨c, cs, hbm⟩ : ∃ c cs, seg.bitmap = c :: cs := by
    cases hb : seg.bitmap with
    | nil => exact absurd hb hne
    | cons c cs => exact ⟨c, cs, rfl⟩
  cases hff : (seg.bitmap.any fun b => !b) <;> cases hfl : (seg.bitmap.any fun b => b)
  · exfalso
    have h1 : c = true := by
      have := List.any_eq_false.mp hff c (by rw [hbm]; exact List.mem_cons_self c cs)
      simpa using this
    have h2 : c = false := by
      have := List.any_eq_false.mp hfl c (by rw [hbm]; exact List.mem_cons_self c cs)
      simpa using this
    rw [h1] at h2
    exact Bool.noConfusion h2
  · simp
  · have hfst : (classifyScan seg.bitmap 0 false false seg).1 = true := by
      rw [classifyScan_fst]; simp [hff]
    obtain ⟨k, hk, hunset, hset, hnf, hsnap⟩ :=
      classifyScan_first_unset seg.bitmap 0 false seg hfst
    have hk0 : k = 0 := by
      by_contra hk0
      have h1 : seg.bitmap.getD 0 false = true := hset 0 (by omega)
      have h2 : c = false := by
        have := List.any_eq_false.mp hfl c (by rw [hbm]; exact List.mem_cons_self c cs)
        simpa using this
      rw [hbm] at h1
      simp [h2] at h1
    have hnf0 : (classifyScan seg.bitmap 0 false false seg).2.2.next_free = 0 := by
      rw [hnf, hk0]
    have hsnap0 : (classifyScan seg.bitmap 0 false false seg).2.2.next_free_snap = 0 := by
      rw [hsnap, hk0]
    refine ⟨.SEGMENT_FREE, (classifyScan seg.bitmap 0 false false seg).2.2, ?_⟩
    simp [hff, hfl, hnf0, hsnap0]
  · simp

/-- C1: for every segment bitmap, `nonmoving_sweep_segment` classifies the
segment `SEGMENT_FREE` iff no bitmap entry is set, `SEGMENT_FILLED` iff
every bitmap entry is set and at least one block exists, and partially
filled (`SEGMENT_MIXED`, the source's third outcome) otherwise: at least
one set and at least one unset entry. -/
theorem C1_classification_correct (seg : Segment) (res : SweepResult) (seg' : Segment)
    (hres : nonmoving_sweep_segment seg = some (res, seg')) :
    (res = .SEGMENT_FREE ↔ ∀ b ∈ seg.bitmap, b = false) ∧
    (res = .SEGMENT_FILLED ↔ ((∀ b ∈ seg.bitmap, b = true) ∧ seg.bitmap ≠ [])) ∧
    (res = .SEGMENT_MIXED ↔
      ((∃ b ∈ seg.bitmap, b = true) ∧ ∃ b ∈ seg.bitmap, b = false)) := by
  obtain ⟨-, hresv⟩ := sweep_segment_inv seg res seg' hres
  cases hff : (seg.bitmap.any fun b => !b) <;> cases hfl : (seg.bitmap.any fun b => b)
  · have hr : res = .SEGMENT_FREE := by rw [hresv]; simp [hff, hfl]
    have hbm : seg.bitmap = [] := by
      rw [List.eq_nil_iff_forall_not_mem]
      intro x hx
      have h1 : ¬(!x) = true := List.any_eq_false.mp hff x hx
      have h2 : ¬x = true := List.any_eq_false.mp hfl x hx
      cases x
      · exact h1 rfl
      · exact h2 rfl
    subst hr
    simp [hbm]
  · have hr : res = .SEGMENT_FILLED := by rw [hresv]; simp [hff, hfl]
    have hall : ∀ b ∈ seg.bitmap, b = true := by
      intro x hx
      have h1 : ¬(!x) = true := List.any_eq_false.mp hff x hx
      cases x
      · exact absurd rfl h1
      · rfl
    obtain ⟨c, hc, hct⟩ := List.any_eq_true.mp hfl
    have hne : seg.bitmap ≠ [] := List.ne_nil_of_mem hc
    subst hr
    refine ⟨?_, ?_, ?_⟩
    · constructor
      · intro h; exact absurd h (by simp)
      · intro hallf
        have h1 := hall c hc
        have h2 := hallf c hc
        rw [h2] at h1
        exact Bool.noConfusion h1
    · exact ⟨fun _ => ⟨hall, hne⟩, fun _ => rfl⟩
    · constructor
      · intro h; exact absurd h (by simp)
      · rintro ⟨-, d, hd, hdf⟩
        have := hall d hd
        rw [hdf] at this
        exact Bool.noConfusion this.symm
  · have hr : res = .SEGMENT_FREE := by rw [hresv]; simp [hff, hfl]
    have hallf : ∀ b ∈ seg.bitmap, b = false := by
      intro x hx
      have h2 : ¬x = true := List.any_eq_false.mp hfl x hx
      cases x
      · rfl
      · exact absurd rfl h2
    subst hr
    refine ⟨⟨fun _ => hallf, fun _ => rfl⟩, ?_, ?_⟩
    · constructor
      · intro h; exact absurd h (by simp)
      · rintro ⟨hall, -⟩
        obtain ⟨c, hc, hcf⟩ := List.any_eq_true.mp hff
        have := hall c hc
        rw [this] at hcf
        simp at hcf
    · constructor
      · intro h; exact absurd h (by simp)
      · rintro ⟨⟨d, hd, hdt⟩, -⟩
        have := hallf d hd
        rw [this] at hdt
        exact Bool.noConfusion hdt
  · have hr : res = .SEGMENT_MIXED := by rw [hresv]; simp [hff, hfl]
    obtain ⟨c, hc, hct⟩ := List.any_eq_true.mp hfl
    obtain ⟨d, hd, hdf⟩ := List.any_eq_true.mp hff
    have hdf' : d = false := by simpa using hdf
    subst hr
    refine ⟨?_, ?_, ?_⟩
    · constructor
      · intro h; exact absurd h (by simp)
      · intro hallf
        have := hallf c hc
        rw [this] at hct
        exact Bool.noConfusion hct
    · constructor
      · intro h; exact absurd h (by simp)
      · rintro ⟨hall, -⟩
        have := hall d hd
        rw [hdf'] at this
        exact Bool.noConfusion this
    · exact ⟨fun _ => ⟨⟨c, hc, hct⟩, ⟨d, hd, hdf'⟩⟩, fun _ => rfl⟩

/-- C1 witness: on the concrete bitmap `[1,0]` the classification is the
partially-filled outcome, and both iff directions are inhabited there. -/
theorem C1_witness :
    nonmoving_sweep_segment ⟨8, [true, false], [], 0, 0, none⟩ =
      some (.SEGMENT_MIXED, ⟨8, [true, false], [], 1, 1, none⟩) ∧
    true ∈ [true, false] ∧ false ∈ [true, false] := by
  have h := (C1_classification_correct ⟨8, [true, false], [], 0, 0, none⟩ .SEGMENT_MIXED
      ⟨8, [true, false], [], 1, 1, none⟩ (by decide)).2.2.mp rfl
  obtain ⟨⟨c, hc, hct⟩, ⟨d, hd, hdf⟩⟩ := h
  subst hct
  subst hdf
  exact ⟨by decide, hc, hd⟩

/-- C2: when classification returns the partially-filled outcome,
`next_free` is the lowest block index with an unset bitmap entry and
`next_free_snap` equals `next_free`; when it returns `SEGMENT_FILLED`, both
cursors keep their pre-scan values. -/
theorem C2_cursor_correct (seg : Segment) (res : SweepResult) (seg' : Segment)
    (hres : nonmoving_sweep_segment seg = some (res, seg')) :
    (res = .SEGMENT_MIXED →
      seg'.next_free < seg.bitmap.length ∧
      seg.bitmap.getD seg'.next_free true = false ∧
      (∀ j, j < seg'.next_free → seg.bitmap.getD j false = true) ∧
      seg'.next_free_snap = seg'.next_free) ∧
    (res = .SEGMENT_FILLED →
      seg'.next_free = seg.next_free ∧ seg'.next_free_snap = seg.next_free_snap) := by
  obtain ⟨hseg, hresv⟩ := sweep_segment_inv seg res seg' hres
  constructor
  · intro hmix
    rw [hmix] at hresv
    have hboth : ((seg.bitmap.any fun b => !b) && seg.bitmap.any fun b => b) = true := by
      by_contra hb
      rw [if_neg (by simpa using hb)] at hresv
      split at hresv <;> exact SweepResult.noConfusion hresv
    have hffb : (seg.bitmap.any fun b => !b) = true := by
      cases h1 : (seg.bitmap.any fun b => !b)
      · rw [h1] at hboth; simp at hboth
      · rfl
    have hfst : (classifyScan seg.bitmap 0 false false seg).1 = true := by
      rw [classifyScan_fst]
      simp [hffb]
    obtain ⟨k, hk, hunset, hset, hnf, hsnap⟩ :=
      classifyScan_first_unset seg.bitmap 0 false seg hfst
    rw [Nat.zero_add] at hnf hsnap
    subst hseg
    rw [hnf]
    exact ⟨hk, hunset, hset, by rw [hsnap]⟩
  · intro hfil
    rw [hfil] at hresv
    have hfff : (seg.bitmap.any fun b => !b) = false := by
      by_contra hb
      rw [eq_comm] at hresv
      have hbt : (seg.bitmap.any fun b => !b) = true := by simpa using hb
      rw [hbt] at hresv
      by_cases hfl : (seg.bitmap.any fun b => b) = true
      · rw [hfl] at hresv
        simp at hresv
      · simp only [Bool.true_and] at hresv
        rw [if_neg (by simpa using hfl), if_neg (by simpa using hfl)] at hresv
        exact SweepResult.noConfusion hresv
    have hfst : (classifyScan seg.bitmap 0 false false seg).1 = false := by
      rw [classifyScan_fst]
      simp [hfff]
    have := classifyScan_seg_of_fst_false seg.bitmap 0 false seg hfst
    rw [hseg, this]
    exact ⟨rfl, rfl⟩

/-- C2 witness: on the bitmap `[1,0]` the partially-filled case puts both
cursors at index `1`, the lowest unset index. -/
theorem C2_witness :
    [true, false].getD ((⟨8, [true, false], [], 1, 1, none⟩ : Segment).next_free) true
      = false ∧
    (⟨8, [true, false], [], 1, 1, none⟩ : Segment).next_free_snap =
      (⟨8, [true, false], [], 1, 1, none⟩ : Segment).next_free := by
  have h := (C2_cursor_correct ⟨8, [true, false], [], 5, 7, none⟩ .SEGMENT_MIXED
      ⟨8, [true, false], [], 1, 1, none⟩ (by decide)).1 rfl
  exact ⟨h.2.1, h.2.2.2⟩

/-- C6: under the precondition that both cursors are zero before sweep
examines the segment, a segment with no set bitmap entry is classified
`SEGMENT_FREE` with both assertions passing, and both cursors are `0`
afterwards. -/
theorem C6_zero_cursor (seg : Segment)
    (hall : ∀ b ∈ seg.bitmap, b = false)
    (hnf : seg.next_free = 0) (hsnap : seg.next_free_snap = 0) :
    ∃ seg', nonmoving_sweep_segment seg = some (.SEGMENT_FREE, seg') ∧
      seg'.next_free = 0 ∧ seg'.next_free_snap = 0 := by
  have hfl : (seg.bitmap.any fun b => b) = false := by
    rw [List.any_eq_false]
    intro x hx
    simp [hall x hx]
  cases hbm : seg.bitmap with
  | nil =>
    refine ⟨seg, ?_, hnf, hsnap⟩
    simp [nonmoving_sweep_segment, hbm, sweepGo, hnf, hsnap]
  | cons c cs =>
    have hcf : c = false := hall c (by rw [hbm]; exact List.mem_cons_self c cs)
    have hff : (seg.bitmap.any fun b => !b) = true := by
      rw [List.any_eq_true]
      exact ⟨c, by rw [hbm]; exact List.mem_cons_self c cs, by simp [hcf]⟩
    have heq := sweepGo_eq_scan seg.bitmap 0 false false seg (by simp)
    have hfst : (classifyScan seg.bitmap 0 false false seg).1 = true := by
      rw [classifyScan_fst]; simp [hff]
    obtain ⟨k, hk, hunset, hset, hnf', hsnap'⟩ :=
      classifyScan_first_unset seg.bitmap 0 false seg hfst
    have hk0 : k = 0 := by
      by_contra hk0
      have h1 : seg.bitmap.getD 0 false = true := hset 0 (by omega)
      rw [hbm] at h1
      simp [hcf] at h1
    have hnf0 : (classifyScan seg.bitmap 0 false false seg).2.2.next_free = 0 := by
      rw [hnf', hk0]
    have hsnap0 : (classifyScan seg.bitmap 0 false false seg).2.2.next_free_snap = 0 := by
      rw [hsnap', hk0]
    refine ⟨(classifyScan seg.bitmap 0 false false seg).2.2, ?_, hnf0, hsnap0⟩
    simp only [nonmoving_sweep_segment]
    rw [heq, classifyScan_fst, classifyScan_snd]
    simp [hff, hfl, hnf0, hsnap0]

/-- C6 witness: the all-free two-block segment with zeroed cursors is
classified free with both cursors still `0`. -/
theorem C6_witness :
    nonmoving_sweep_segment ⟨8, [false, false], [], 0, 0, none⟩ =
      some (.SEGMENT_FREE, ⟨8, [false, false], [], 0, 0, none⟩) := by
  obtain ⟨seg', hres, hnf, hsnap⟩ :=
    C6_zero_cursor ⟨8, [false, false], [], 0, 0, none⟩ (by decide) rfl rfl
  have hcomp : nonmoving_sweep_segment ⟨8, [false, false], [], 0, 0, none⟩ =
      some (.SEGMENT_FREE, ⟨8, [false, false], [], 0, 0, none⟩) := by decide
  exact hcomp

/-- C9: the early-exit classification agrees with the reference
classification that scans every block index to the end, both in the
returned result and in the final segment (hence in the final
`next_free`/`next_free_snap` values). -/
theorem C9_early_exit_refines (seg : Segment) (res : SweepResult) (seg' : Segment)
    (hres : nonmoving_sweep_segment seg = some (res, seg')) :
    classifyRef seg = (res, seg') := by
  obtain ⟨hseg, hresv⟩ := sweep_segment_inv seg res seg' hres
  subst hseg
  subst hresv
  simp only [classifyRef]
  rw [classifyScan_fst, classifyScan_snd]
  cases hff : (seg.bitmap.any fun b => !b) <;> cases hfl : (seg.bitmap.any fun b => b) <;>
    simp [hff, hfl]

/-- C9 witness: on the bitmap `[1,0]` both classifications return the
partially-filled outcome with cursors at `1`. -/
theorem C9_witness :
    classifyRef ⟨8, [true, false], [], 5, 7, none⟩ =
      (.SEGMENT_MIXED, ⟨8, [true, false], [], 1, 1, none⟩) :=
  C9_early_exit_refines ⟨8, [true, false], [], 5, 7, none⟩ .SEGMENT_MIXED
    ⟨8, [true, false], [], 1, 1, none⟩ (by decide)

/-! Chain infrastructure: frame, congruence, append and rewiring lemmas. -/

theorem isChainSeg_congr {store1 store2 : Nat → Segment} :
    ∀ (l : List Nat) (hd tl : Option Nat), (∀ b ∈ l, store1 b = store2 b) →
      isChainSeg store1 hd l tl → isChainSeg store2 hd l tl := by
  intro l
  induction l with
  | nil => intro hd tl _ hc; exact hc
  | cons a rest ih =>
    intro hd tl hag hc
    obtain ⟨h1, h2⟩ := hc
    refine ⟨h1, ?_⟩
    rw [← hag a (List.mem_cons_self a rest)]
    exact ih _ _ (fun b hb => hag b (List.mem_cons_of_mem a hb)) h2

theorem isChainSeg_update {store : Nat → Segment} {a : Nat} {s : Segment} :
    ∀ (l : List Nat) (hd tl : Option Nat), a ∉ l →
      isChainSeg store hd l tl → isChainSeg (Function.update store a s) hd l tl := by
  intro l hd tl ha hc
  refine isChainSeg_congr l hd tl ?_ hc
  intro b hb
  rw [Function.update_noteq (by rintro rfl; exact ha hb) s store]

theorem isChainSeg_append {store : Nat → Segment} :
    ∀ (l m : List Nat) (hd mid tl : Option Nat),
      isChainSeg store hd l mid → isChainSeg store mid m tl →
      isChainSeg store hd (l ++ m) tl := by
  intro l
  induction l with
  | nil => intro m hd mid tl h1 h2; rw [show hd = mid from h1]; exact h2
  | cons a rest ih =>
    intro m hd mid tl h1 h2
    exact ⟨h1.1, ih m _ mid tl h1.2 h2⟩

/-- The tail walk plus rewiring: on a `Nodup` nil-terminated chain
`a :: l`, `findTail` finds the last address `t` within `l.length` fuel, and
overwriting `t`'s link with `v` turns the chain into one ending at `v`. -/
theorem splice_chain {store : Nat → Segment} (v : Option Nat) :
    ∀ (l : List Nat) (a : Nat) (fuel : Nat), (a :: l).Nodup →
      isChainSeg store (some a) (a :: l) none → l.length ≤ fuel →
      ∃ t, t ∈ a :: l ∧ findTail store a fuel = some t ∧
        isChainSeg (Function.update store t { store t with link := v })
          (some a) (a :: l) v := by
  intro l
  induction l with
  | nil =>
    intro a fuel _ hc _
    have hlink : (store a).link = none := hc.2
    refine ⟨a, List.mem_cons_self a [], ?_, ?_⟩
    · simp [findTail, hlink]
    · exact ⟨rfl, by simp [isChainSeg, Function.update_same]⟩
  | cons b rest ih =>
    intro a fuel hnd hc hfuel
    have hlink : (store a).link = some b := hc.2.1
    obtain ⟨f, rfl⟩ : ∃ f, fuel = f + 1 := by
      cases fuel
      · simp at hfuel
      · exact ⟨_, rfl⟩
    have hnd' : (b :: rest).Nodup := hnd.of_cons
    have hc' : isChainSeg store (some b) (b :: rest) none := ⟨rfl, hc.2.2⟩
    obtain ⟨t, htmem, htft, htchain⟩ := ih b f hnd' hc' (by simpa using hfuel)
    have hat : a ≠ t := by
      rintro rfl
      exact (List.nodup_cons.mp hnd).1 htmem
    refine ⟨t, List.mem_cons_of_mem a htmem, ?_, ?_⟩
    · simp [findTail, hlink, htft]
    · refine ⟨rfl, ?_⟩
      rw [Function.update_noteq hat _ store, hlink]
      exact htchain

/-- Congruence for `flatMap` under pointwise agreement on the index list. -/
theorem flatMap_congr_mem {f g : Nat → List Nat} :
    ∀ (l : List Nat), (∀ x ∈ l, f x = g x) → l.flatMap f = l.flatMap g := by
  intro l
  induction l with
  | nil => intro _; rfl
  | cons a rest ih =>
    intro hag
    simp only [List.flatMap_cons]
    rw [hag a (List.mem_cons_self a rest),
      ih (fun x hx => hag x (List.mem_cons_of_mem a hx))]

/-- Pushing one address onto the `i`-th sub-list permutes the flattened
family by a single cons. -/
theorem flatMap_update_perm (f : Nat → List Nat) (i a : Nat) :
    ∀ (l : List Nat), l.Nodup → i ∈ l →
      List.Perm (l.flatMap (Function.update f i (a :: f i))) (a :: l.flatMap f) := by
  intro l
  induction l with
  | nil => intro _ h; simp at h
  | cons j rest ih =>
    intro hnd hmem
    by_cases hji : j = i
    · subst hji
      have hjr : j ∉ rest := (List.nodup_cons.mp hnd).1
      simp only [List.flatMap_cons, Function.update_same]
      rw [flatMap_congr_mem rest
        (fun x hx => Function.update_noteq (by rintro rfl; exact hjr hx) _ f)]
      simp
    · have hir : i ∈ rest := by
        cases hmem
        · exact absurd rfl hji
        · assumption
      simp only [List.flatMap_cons]
      rw [Function.update_noteq hji _ f]
      have h1 : List.Perm (f j ++ rest.flatMap (Function.update f i (a :: f i)))
          (f j ++ (a :: rest.flatMap f)) :=
        (ih (List.nodup_cons.mp hnd).2 hir).append_left (f j)
      exact h1.trans List.perm_middle

/-- Effect of one `prepare_sweep` iteration: the allocator's filled chain
`L` is spliced in front of the current sweep chain `acc`; only the links of
`L`'s tail change in the store. -/
theorem spliceFilled_spec (fuel : Nat) (h : Heap) (idx : Nat) (L acc : List Nat)
    (hL : isChainSeg h.store ((h.allocators idx).filled) L none)
    (hnd : L.Nodup)
    (hacc : isChainSeg h.store h.sweep_list acc none)
    (hdisj : ∀ x ∈ L, x ∉ acc)
    (hfuel : L.length ≤ fuel + 1) :
    ∃ h', spliceFilled fuel h idx = some h' ∧
      isChainSeg h'.store h'.sweep_list (L ++ acc) none ∧
      h'.allocators =
        Function.update h.allocators idx { h.allocators idx with filled := none } ∧
      (∀ b, b ∉ L → h'.store b = h.store b) ∧
      (∀ b, (h'.store b).block_size = (h.store b).block_size ∧
            (h'.store b).bitmap = (h.store b).bitmap ∧
            (h'.store b).blocks = (h.store b).blocks ∧
            (h'.store b).next_free = (h.store b).next_free ∧
            (h'.store b).next_free_snap = (h.store b).next_free_snap) ∧
      h'.free = h.free := by
  cases L with
  | nil =>
    have hfil : (h.allocators idx).filled = none := hL
    refine ⟨{ h with
        allocators := Function.update h.allocators idx { h.allocators idx with filled := none } },
      by simp [spliceFilled, hfil], ?_, rfl, fun b hb => rfl,
      fun b => ⟨rfl, rfl, rfl, rfl, rfl⟩, rfl⟩
    simpa using hacc
  | cons a rest =>
    have hfil : (h.allocators idx).filled = some a := hL.1
    have hc : isChainSeg h.store (some a) (a :: rest) none := ⟨rfl, hL.2⟩
    obtain ⟨t, htmem, htft, htchain⟩ :=
      splice_chain h.sweep_list rest a fuel hnd hc (by simpa using hfuel)
    refine ⟨{ h with
        store := Function.update h.store t { h.store t with link := h.sweep_list },
        allocators :=
          Function.update h.allocators idx { h.allocators idx with filled := none },
        sweep_list := some a }, ?_, ?_, rfl, ?_, ?_, rfl⟩
    · simp [spliceFilled, hfil, htft]
    · refine isChainSeg_append (a :: rest) acc (some a) h.sweep_list none htchain ?_
      exact isChainSeg_update acc h.sweep_list none (hdisj t htmem) hacc
    · intro b hb
      exact Function.update_noteq (by rintro rfl; exact hb htmem) _ h.store
    · intro b
      by_cases hbt : b = t
      · subst hbt
        simp [Function.update_same]
      · simp [Function.update_noteq hbt]

/-- Effect of the full `prepare_sweep` loop over an index list: every
processed allocator's filled list is emptied and the sweep chain becomes
the concatenation of the per-class chains in reverse processing order, in
front of the initial sweep chain. -/
theorem prepare_fold_spec (fuel : Nat) :
    ∀ (idxs : List Nat) (h : Heap) (Ls : Nat → List Nat) (acc : List Nat),
      idxs.Nodup →
      (∀ i ∈ idxs, isChainSeg h.store ((h.allocators i).filled) (Ls i) none) →
      (∀ i ∈ idxs, (Ls i).length ≤ fuel + 1) →
      (idxs.flatMap Ls ++ acc).Nodup →
      isChainSeg h.store h.sweep_list acc none →
      ∃ h', List.foldlM (fun hh idx => spliceFilled fuel hh idx) h idxs = some h' ∧
        isChainSeg h'.store h'.sweep_list (idxs.reverse.flatMap Ls ++ acc) none ∧
        (∀ i ∈ idxs, (h'.allocators i).filled = none) ∧
        (∀ i, i ∉ idxs → h'.allocators i = h.allocators i) ∧
        (∀ i, (h'.allocators i).active = (h.allocators i).active) ∧
        (∀ b, b ∉ idxs.flatMap Ls → h'.store b = h.store b) ∧
        (∀ b, (h'.store b).block_size = (h.store b).block_size ∧
              (h'.store b).bitmap = (h.store b).bitmap ∧
              (h'.store b).blocks = (h.store b).blocks ∧
              (h'.store b).next_free = (h.store b).next_free ∧
              (h'.store b).next_free_snap = (h.store b).next_free_snap) ∧
        h'.free = h.free := by
  intro idxs
  induction idxs with
  | nil =>
    intro h Ls acc _ _ _ _ hacc
    exact ⟨h, by simp [List.foldlM_nil], by simpa using hacc, by simp,
      fun i _ => rfl, fun i => rfl, fun b _ => rfl, fun b => ⟨rfl, rfl, rfl, rfl, rfl⟩, rfl⟩
  | cons idx rest ih =>
    intro h Ls acc hnd hchains hlens hbig hacc
    have hidxrest : idx ∉ rest := (List.nodup_cons.mp hnd).1
    have hndrest : rest.Nodup := (List.nodup_cons.mp hnd).2
    have hbig' : ((Ls idx ++ rest.flatMap Ls) ++ acc).Nodup := by
      simpa [List.flatMap_cons] using hbig
    have hbig'' : (Ls idx ++ (rest.flatMap Ls ++ acc)).Nodup := by
      simpa [List.append_assoc] using hbig'
    have hndL : (Ls idx).Nodup := hbig''.of_append_left
    have hdisjL : ∀ x ∈ Ls idx, x ∉ rest.flatMap Ls ++ acc :=
      fun x hx => List.disjoint_of_nodup_append hbig'' hx
    obtain ⟨h1, hsplice, hchain1, halloc1, hframe1, hfields1, hfree1⟩ :=
      spliceFilled_spec fuel h idx (Ls idx) acc
        (hchains idx (List.mem_cons_self idx rest)) hndL hacc
        (fun x hx hxacc => hdisjL x hx (List.mem_append_right _ hxacc))
        (hlens idx (List.mem_cons_self idx rest))
    have hstep : ∀ i ∈ rest, isChainSeg h1.store ((h1.allocators i).filled) (Ls i) none := by
      intro i hi
      have hine : i ≠ idx := by rintro rfl; exact hidxrest hi
      have hhead : (h1.allocators i).filled = (h.allocators i).filled := by
        rw [halloc1, Function.update_noteq hine]
      rw [hhead]
      refine isChainSeg_congr (Ls i) _ none ?_ (hchains i (List.mem_cons_of_mem idx hi))
      intro b hb
      have hbnotL : b ∉ Ls idx := by
        intro hbL
        exact hdisjL b hbL (List.mem_append_left _ (List.mem_flatMap.mpr ⟨i, hi, hb⟩))
      exact (hframe1 b hbnotL).symm
    have hbigrec : (rest.flatMap Ls ++ (Ls idx ++ acc)).Nodup := by
      have hperm : List.Perm ((Ls idx ++ rest.flatMap Ls) ++ acc)
          (rest.flatMap Ls ++ (Ls idx ++ acc)) := by
        have h1p : List.Perm ((Ls idx ++ rest.flatMap Ls) ++ acc)
            ((rest.flatMap Ls ++ Ls idx) ++ acc) :=
          (List.perm_append_comm).append_right acc
        simpa [List.append_assoc] using h1p
      exact hperm.nodup hbig'
    obtain ⟨h2, hfold, hchain2, hfil2, hun2, hact2, hframe2, hfields2, hfree2⟩ :=
      ih h1 Ls (Ls idx ++ acc) hndrest hstep
        (fun i hi => hlens i (List.mem_cons_of_mem idx hi)) hbigrec hchain1
    refine ⟨h2, ?_, ?_, ?_, ?_, ?_, ?_, ?_, ?_⟩
    · rw [List.foldlM_cons, hsplice]
      exact hfold
    · have hlist : (idx :: rest).reverse.flatMap Ls ++ acc =
          rest.reverse.flatMap Ls ++ (Ls idx ++ acc) := by
        simp [List.flatMap_append, List.append_assoc]
      rw [hlist]
      exact hchain2
    · intro i hi
      rcases List.mem_cons.mp hi with rfl | hir
      · rw [hun2 i hidxrest, halloc1, Function.update_same]
      · exact hfil2 i hir
    · intro i hi
      have hi1 : i ∉ rest := fun hir => hi (List.mem_cons_of_mem idx hir)
      have hi2 : i ≠ idx := fun he => hi (he ▸ List.mem_cons_self idx rest)
      rw [hun2 i hi1, halloc1, Function.update_noteq hi2]
    · intro i
      rw [hact2 i]
      by_cases hie : i = idx
      · subst hie
        rw [halloc1, Function.update_same]
      · rw [halloc1, Function.update_noteq hie]
    · intro b hb
      rw [List.flatMap_cons, List.mem_append] at hb
      push_neg at hb
      rw [hframe2 b hb.2, hframe1 b hb.1]
    · intro b
      obtain ⟨e1, e2, e3, e4, e5⟩ := hfields2 b
      obtain ⟨f1, f2, f3, f4, f5⟩ := hfields1 b
      exact ⟨e1.trans f1, e2.trans f2, e3.trans f3, e4.trans f4, e5.trans f5⟩
    · rw [hfree2, hfree1]

/-- Full effect of `prepare_sweep` when the entry assertion holds. -/
theorem prepare_sweep_spec (cfg : Config) (pfuel : Nat) (h : Heap) (Ls : Nat → List Nat)
    (hsw : h.sweep_list = none)
    (hchains : ∀ i, i < cfg.allocaCnt →
      isChainSeg h.store ((h.allocators i).filled) (Ls i) none)
    (hlens : ∀ i, i < cfg.allocaCnt → (Ls i).length ≤ pfuel + 1)
    (hnd : ((List.range cfg.allocaCnt).flatMap Ls).Nodup) :
    ∃ h', prepare_sweep cfg pfuel h = some h' ∧
      isChainSeg h'.store h'.sweep_list
        ((List.range cfg.allocaCnt).reverse.flatMap Ls) none ∧
      (∀ i, i < cfg.allocaCnt → (h'.allocators i).filled = none) ∧
      (∀ i, (h'.allocators i).active = (h.allocators i).active) ∧
      (∀ b, b ∉ (List.range cfg.allocaCnt).flatMap Ls → h'.store b = h.store b) ∧
      (∀ b, (h'.store b).block_size = (h.store b).block_size ∧
            (h'.store b).bitmap = (h.store b).bitmap ∧
            (h'.store b).blocks = (h.store b).blocks ∧
            (h'.store b).next_free = (h.store b).next_free ∧
            (h'.store b).next_free_snap = (h.store b).next_free_snap) ∧
      h'.free = h.free := by
  obtain ⟨h', hfold, hchain, hfil, -, hact, hframe, hfields, hfree⟩ :=
    prepare_fold_spec pfuel (List.range cfg.allocaCnt) h Ls []
      (List.nodup_range cfg.allocaCnt)
      (fun i hi => hchains i (List.mem_range.mp hi))
      (fun i hi => hlens i (List.mem_range.mp hi))
      (by simpa using hnd)
      (by rw [hsw]; rfl)
  refine ⟨h', ?_, by simpa using hchain,
    fun i hi => hfil i (List.mem_range.mpr hi), hact, hframe, hfields, hfree⟩
  simp only [prepare_sweep, hsw, if_pos]
  exact hfold

set_option maxRecDepth 8192 in
/-- Effect of one sweep-loop body on a segment classified free: the segment
is re-linked onto the free list (and scrubbed entirely in a DEBUG build). -/
theorem sweepStep_FREE (cfg : Config) (debug : Bool) (h : Heap) (a : Nat) (seg' : Segment)
    (hres : nonmoving_sweep_segment (h.store a) = some (.SEGMENT_FREE, seg')) :
    sweepStep cfg debug h a = some { h with
      store := Function.update h.store a
        (if debug then clear_segment { seg' with link := h.free }
         else { seg' with link := h.free }),
      free := some a } := by
  cases debug <;>
    simp [sweepStep, hres, push_free_segment, Function.update_idem, Function.update_same]

set_option maxRecDepth 8192 in
/-- Effect of one sweep-loop body on a partially-filled segment: it is
re-linked onto the active list of its own size class (dead blocks scrubbed
in a DEBUG build). -/
theorem sweepStep_MIXED (cfg : Config) (debug : Bool) (h : Heap) (a : Nat) (seg' : Segment)
    (hres : nonmoving_sweep_segment (h.store a) = some (.SEGMENT_MIXED, seg')) :
    sweepStep cfg debug h a = some { h with
      store := Function.update h.store a
        (if debug then
          clear_segment_free_blocks
            { seg' with link := (h.allocators (allocIdx cfg seg')).active }
         else { seg' with link := (h.allocators (allocIdx cfg seg')).active }),
      allocators := Function.update h.allocators (allocIdx cfg seg')
        { h.allocators (allocIdx cfg seg') with active := some a } } := by
  cases debug <;>
    simp [sweepStep, hres, push_active_segment, Function.update_idem, Function.update_same]

set_option maxRecDepth 8192 in
/-- Effect of one sweep-loop body on a filled segment: it is re-linked onto
the filled list of its own size class; nothing is scrubbed. -/
theorem sweepStep_FILLED (cfg : Config) (debug : Bool) (h : Heap) (a : Nat) (seg' : Segment)
    (hres : nonmoving_sweep_segment (h.store a) = some (.SEGMENT_FILLED, seg')) :
    sweepStep cfg debug h a = some { h with
      store := Function.update h.store a
        { seg' with link := (h.allocators (allocIdx cfg seg')).filled },
      allocators := Function.update h.allocators (allocIdx cfg seg')
        { h.allocators (allocIdx cfg seg') with filled := some a } } := by
  simp [sweepStep, hres, push_filled_segment, Function.update_idem, Function.update_same]

/-- Whatever one sweep-loop body does, it leaves the sweep head alone and
writes no segment other than the popped one. -/
theorem sweepStep_frame (cfg : Config) (debug : Bool) (h : Heap) (a : Nat) (h2 : Heap)
    (hstep : sweepStep cfg debug h a = some h2) :
    h2.sweep_list = h.sweep_list ∧ (∀ b, b ≠ a → h2.store b = h.store b) := by
  cases hres : nonmoving_sweep_segment (h.store a) with
  | none => simp [sweepStep, hres] at hstep
  | some rs =>
    obtain ⟨res, seg'⟩ := rs
    cases res
    · rw [sweepStep_FREE cfg debug h a seg' hres] at hstep
      obtain rfl := Option.some.inj hstep
      exact ⟨rfl, fun b hb => Function.update_noteq hb _ h.store⟩
    · rw [sweepStep_MIXED cfg debug h a seg' hres] at hstep
      obtain rfl := Option.some.inj hstep
      exact ⟨rfl, fun b hb => Function.update_noteq hb _ h.store⟩
    · rw [sweepStep_FILLED cfg debug h a seg' hres] at hstep
      obtain rfl := Option.some.inj hstep
      exact ⟨rfl, fun b hb => Function.update_noteq hb _ h.store⟩

/-- A successful sweep loop always ends with an empty sweep list. -/
theorem loop_some_sweep_none (cfg : Config) (debug : Bool) :
    ∀ (fuel : Nat) (h h' : Heap),
      nonmoving_sweep_loop cfg debug fuel h = some h' → h'.sweep_list = none := by
  intro fuel
  induction fuel with
  | zero =>
    intro h h' hl
    cases hsw : h.sweep_list with
    | none =>
      simp only [nonmoving_sweep_loop, hsw] at hl
      obtain rfl := Option.some.inj hl
      exact hsw
    | some a => simp [nonmoving_sweep_loop, hsw] at hl
  | succ f ih =>
    intro h h' hl
    cases hsw : h.sweep_list with
    | none =>
      simp only [nonmoving_sweep_loop, hsw] at hl
      obtain rfl := Option.some.inj hl
      exact hsw
    | some a =>
      simp only [nonmoving_sweep_loop, hsw] at hl
      cases hstep : sweepStep cfg debug { h with sweep_list := (h.store a).link } a with
      | none => rw [hstep] at hl; simp at hl
      | some h2 =>
        rw [hstep] at hl
        exact ih h2 h' hl

/-- When the sweep list is the `Nodup` chain `addrs`, the fueled loop with
at least `addrs.length` fuel equals the fuel-free per-address fold: the
loop terminates and pops each chained segment exactly once, in order. -/
theorem loop_eq_sweepList_aux (cfg : Config) (debug : Bool) :
    ∀ (addrs : List Nat) (h : Heap) (fuel : Nat),
      isChainSeg h.store h.sweep_list addrs none → addrs.Nodup →
      addrs.length ≤ fuel →
      nonmoving_sweep_loop cfg debug fuel h = sweepList cfg debug addrs h := by
  intro addrs
  induction addrs with
  | nil =>
    intro h fuel hc _ _
    have hsw : h.sweep_list = none := hc
    cases fuel <;> simp [nonmoving_sweep_loop, sweepList, hsw]
  | cons a rest ih =>
    intro h fuel hchain hnd hlen
    have hsw : h.sweep_list = some a := hchain.1
    obtain ⟨f, rfl⟩ : ∃ f, fuel = f + 1 := by
      cases fuel
      · simp at hlen
      · exact ⟨_, rfl⟩
    have hlink : (h.store a).link = rest.head? := by
      cases rest with
      | nil => exact hchain.2
      | cons b rest' => exact hchain.2.1
    simp only [nonmoving_sweep_loop, hsw, sweepList, hlink]
    cases hstep : sweepStep cfg debug { h with sweep_list := rest.head? } a with
    | none => rfl
    | some h2 =>
      obtain ⟨hsw2, hframe2⟩ := sweepStep_frame cfg debug _ a h2 hstep
      refine ih h2 f ?_ hnd.of_cons (by simpa using hlen)
      have hchain2 : isChainSeg h.store rest.head? rest none := by
        rw [← hlink]
        exact hchain.2
      rw [hsw2]
      refine isChainSeg_congr rest rest.head? none ?_ hchain2
      intro b hb
      exact (hframe2 b (by rintro rfl; exact (List.nodup_cons.mp hnd).1 hb)).symm

/-- C4: `nonmoving_sweep` requires the global sweep list to be empty at
entry — the `ASSERT` in `prepare_sweep` fails fatally (modelled `none`)
otherwise — and whenever it returns, the global sweep list is empty
again. -/
theorem C4_sweep_list_guard (cfg : Config) (debug : Bool) (pfuel fuel : Nat) (h : Heap) :
    (h.sweep_list ≠ none → nonmoving_sweep cfg debug pfuel fuel h = none) ∧
    (∀ h', nonmoving_sweep cfg debug pfuel fuel h = some h' → h'.sweep_list = none) := by
  constructor
  · intro hne
    simp [nonmoving_sweep, prepare_sweep, hne]
  · intro h' hsome
    simp only [nonmoving_sweep] at hsome
    cases hprep : prepare_sweep cfg pfuel h with
    | none => rw [hprep] at hsome; exact absurd hsome (by simp)
    | some h1 =>
      rw [hprep] at hsome
      exact loop_some_sweep_none cfg debug fuel h1 h' hsome

/-- C4 witness: a heap whose sweep list is non-empty makes the sweep abort,
and a successful sweep of an empty heap leaves the sweep list empty. -/
theorem C4_witness :
    nonmoving_sweep ⟨0, 0⟩ true 1 1
      ⟨fun _ => ⟨0, [], [], 0, 0, none⟩, fun _ => ⟨none, none⟩, none, some 0⟩ = none ∧
    (⟨fun _ => ⟨0, [], [], 0, 0, none⟩, fun _ => ⟨none, none⟩, none, none⟩ : Heap).sweep_list
      = none := by
  constructor
  · exact (C4_sweep_list_guard ⟨0, 0⟩ true 1 1
      ⟨fun _ => ⟨0, [], [], 0, 0, none⟩, fun _ => ⟨none, none⟩, none, some 0⟩).1 (by simp)
  · exact (C4_sweep_list_guard ⟨0, 0⟩ true 1 1
      ⟨fun _ => ⟨0, [], [], 0, 0, none⟩, fun _ => ⟨none, none⟩, none, none⟩).2
      ⟨fun _ => ⟨0, [], [], 0, 0, none⟩, fun _ => ⟨none, none⟩, none, none⟩ rfl

/-- C5: after `prepare_sweep`, every allocator's filled list is empty and
the global sweep list is exactly the concatenation of the previous
per-class filled chains (classes spliced in reverse index order, each
sub-chain's relative order preserved). -/
theorem C5_prepare_collects_filled (cfg : Config) (pfuel : Nat) (h : Heap)
    (Fs : Nat → List Nat)
    (hsw : h.sweep_list = none)
    (hchains : ∀ i, i < cfg.allocaCnt →
      isChainSeg h.store ((h.allocators i).filled) (Fs i) none)
    (hlens : ∀ i, i < cfg.allocaCnt → (Fs i).length ≤ pfuel + 1)
    (hnd : ((List.range cfg.allocaCnt).flatMap Fs).Nodup) :
    ∃ h', prepare_sweep cfg pfuel h = some h' ∧
      (∀ i, i < cfg.allocaCnt → (h'.allocators i).filled = none) ∧
      isChainSeg h'.store h'.sweep_list
        ((List.range cfg.allocaCnt).reverse.flatMap Fs) none := by
  obtain ⟨h', hp, hchain, hfil, -, -, -, -⟩ :=
    prepare_sweep_spec cfg pfuel h Fs hsw hchains hlens hnd
  exact ⟨h', hp, hfil, hchain⟩

/-- C5 witness: a one-class heap with a single filled segment prepares
successfully. -/
theorem C5_witness :
    (prepare_sweep ⟨1, 3⟩ 1
      ⟨fun _ => ⟨3, [true], [[5]], 0, 0, none⟩,
        fun _ => ⟨none, some 0⟩, none, none⟩).isSome = true := by
  obtain ⟨h', hp, -, -⟩ := C5_prepare_collects_filled ⟨1, 3⟩ 1
    ⟨fun _ => ⟨3, [true], [[5]], 0, 0, none⟩, fun _ => ⟨none, some 0⟩, none, none⟩
    (fun _ => [0]) rfl
    (by
      intro i hi
      have hi' : i < 1 := hi
      have hi0 : i = 0 := by omega
      subst hi0
      exact ⟨rfl, rfl⟩)
    (by intro i hi; simp)
    (by decide)
  rw [hp]
  rfl

/-- C10: on a finite, duplicate-free (hence acyclic) initial sweep chain
`addrs`, the sweep loop with fuel `addrs.length` (or any larger fuel)
terminates and agrees with the fuel-free fold that pops each chained
segment exactly once in chain order: advancing the head to `seg->link`
before re-filing means the link overwrite never alters the remaining
traversal. -/
theorem C10_loop_pops_each_once (cfg : Config) (debug : Bool) (h : Heap)
    (addrs : List Nat) (fuel : Nat)
    (hchain : isChainSeg h.store h.sweep_list addrs none)
    (hnd : addrs.Nodup) (hfuel : addrs.length ≤ fuel) :
    nonmoving_sweep_loop cfg debug fuel h = sweepList cfg debug addrs h :=
  loop_eq_sweepList_aux cfg debug addrs h fuel hchain hnd hfuel

/-- C10 witness: a one-segment sweep chain with exactly enough fuel. -/
theorem C10_witness :
    nonmoving_sweep_loop ⟨1, 3⟩ true 1
        ⟨fun _ => ⟨3, [true], [[5]], 0, 0, none⟩, fun _ => ⟨none, none⟩, none, some 0⟩ =
      sweepList ⟨1, 3⟩ true [0]
        ⟨fun _ => ⟨3, [true], [[5]], 0, 0, none⟩, fun _ => ⟨none, none⟩, none, some 0⟩ :=
  C10_loop_pops_each_once ⟨1, 3⟩ true
    ⟨fun _ => ⟨3, [true], [[5]], 0, 0, none⟩, fun _ => ⟨none, none⟩, none, some 0⟩
    [0] 1 ⟨rfl, rfl⟩ (by decide) (by decide)

/-- All addresses reachable from the free list and from every size class's
active and filled lists, as one concatenated list. -/
def heapLists (cfg : Config) (F : List Nat) (As Fs : Nat → List Nat) : List Nat :=
  F ++ (List.range cfg.allocaCnt).flatMap As ++ (List.range cfg.allocaCnt).flatMap Fs

theorem mem_heapLists_of_F {cfg : Config} {F : List Nat} {As Fs : Nat → List Nat}
    {x : Nat} (hx : x ∈ F) : x ∈ heapLists cfg F As Fs := by
  simp only [heapLists, List.mem_append]
  exact Or.inl (Or.inl hx)

theorem mem_heapLists_of_As {cfg : Config} {F : List Nat} {As Fs : Nat → List Nat}
    {x i : Nat} (hi : i < cfg.allocaCnt) (hx : x ∈ As i) : x ∈ heapLists cfg F As Fs := by
  simp only [heapLists, List.mem_append]
  exact Or.inl (Or.inr (List.mem_flatMap.mpr ⟨i, List.mem_range.mpr hi, hx⟩))

theorem mem_heapLists_of_Fs {cfg : Config} {F : List Nat} {As Fs : Nat → List Nat}
    {x i : Nat} (hi : i < cfg.allocaCnt) (hx : x ∈ Fs i) : x ∈ heapLists cfg F As Fs := by
  simp only [heapLists, List.mem_append]
  exact Or.inr (List.mem_flatMap.mpr ⟨i, List.mem_range.mpr hi, hx⟩)

/-- Replacing the middle block of a three-block concatenation by a
permutation that adds one element in front permutes the whole list by a
single front insertion. -/
theorem perm_insert_block (P Q Q' R : List Nat) (a : Nat)
    (hQ : List.Perm Q' (a :: Q)) :
    List.Perm (P ++ Q' ++ R) (a :: (P ++ Q ++ R)) := by
  have h1 : List.Perm (Q' ++ R) (a :: (Q ++ R)) := by
    simpa using hQ.append_right R
  have h2 : List.Perm (P ++ (Q' ++ R)) (P ++ (a :: (Q ++ R))) := h1.append_left P
  have h3 : List.Perm (P ++ (a :: (Q ++ R))) (a :: (P ++ (Q ++ R))) := List.perm_middle
  have h4 := h2.trans h3
  simpa [List.append_assoc] using h4

/-- Existential form of `sweepStep_FREE` exposing the new heap's fields. -/
theorem sweepStep_FREE_ex (cfg : Config) (debug : Bool) (h : Heap) (a : Nat) (seg' : Segment)
    (hres : nonmoving_sweep_segment (h.store a) = some (.SEGMENT_FREE, seg')) :
    ∃ h2, sweepStep cfg debug h a = some h2 ∧
      h2.store = Function.update h.store a
        (if debug then clear_segment { seg' with link := h.free }
         else { seg' with link := h.free }) ∧
      h2.allocators = h.allocators ∧ h2.free = some a ∧ h2.sweep_list = h.sweep_list :=
  ⟨_, sweepStep_FREE cfg debug h a seg' hres, rfl, rfl, rfl, rfl⟩

/-- Existential form of `sweepStep_MIXED` exposing the new heap's fields. -/
theorem sweepStep_MIXED_ex (cfg : Config) (debug : Bool) (h : Heap) (a : Nat) (seg' : Segment)
    (hres : nonmoving_sweep_segment (h.store a) = some (.SEGMENT_MIXED, seg')) :
    ∃ h2, sweepStep cfg debug h a = some h2 ∧
      h2.store = Function.update h.store a
        (if debug then
          clear_segment_free_blocks
            { seg' with link := (h.allocators (allocIdx cfg seg')).active }
         else { seg' with link := (h.allocators (allocIdx cfg seg')).active }) ∧
      h2.allocators = Function.update h.allocators (allocIdx cfg seg')
        { h.allocators (allocIdx cfg seg') with active := some a } ∧
      h2.free = h.free ∧ h2.sweep_list = h.sweep_list :=
  ⟨_, sweepStep_MIXED cfg debug h a seg' hres, rfl, rfl, rfl, rfl⟩

/-- Existential form of `sweepStep_FILLED` exposing the new heap's fields. -/
theorem sweepStep_FILLED_ex (cfg : Config) (debug : Bool) (h : Heap) (a : Nat) (seg' : Segment)
    (hres : nonmoving_sweep_segment (h.store a) = some (.SEGMENT_FILLED, seg')) :
    ∃ h2, sweepStep cfg debug h a = some h2 ∧
      h2.store = Function.update h.store a
        { seg' with link := (h.allocators (allocIdx cfg seg')).filled } ∧
      h2.allocators = Function.update h.allocators (allocIdx cfg seg')
        { h.allocators (allocIdx cfg seg') with filled := some a } ∧
      h2.free = h.free ∧ h2.sweep_list = h.sweep_list :=
  ⟨_, sweepStep_FILLED cfg debug h a seg' hres, rfl, rfl, rfl, rfl⟩

/-- Invariant of the per-address sweep fold: every processed segment is
re-filed onto the free chain or onto the active/filled chain of its own
size class, the address population of all chains together is preserved
(plus the processed addresses), chains only grow by prepends, and segments
not processed are untouched. -/
theorem sweepList_spec (cfg : Config) (debug : Bool) :
    ∀ (addrs : List Nat) (h : Heap) (F : List Nat) (As Fs : Nat → List Nat)
      (cls : Nat → Nat),
      isChainSeg h.store h.free F none →
      (∀ i, i < cfg.allocaCnt →
        isChainSeg h.store ((h.allocators i).active) (As i) none) →
      (∀ i, i < cfg.allocaCnt →
        isChainSeg h.store ((h.allocators i).filled) (Fs i) none) →
      (heapLists cfg F As Fs ++ addrs).Nodup →
      (∀ a ∈ addrs, (h.store a).bitmap ≠ []) →
      (∀ a ∈ addrs, allocIdx cfg (h.store a) = cls a ∧ cls a < cfg.allocaCnt) →
      ∃ h' F' As' Fs',
        sweepList cfg debug addrs h = some h' ∧
        isChainSeg h'.store h'.free F' none ∧
        (∀ i, i < cfg.allocaCnt →
          isChainSeg h'.store ((h'.allocators i).active) (As' i) none) ∧
        (∀ i, i < cfg.allocaCnt →
          isChainSeg h'.store ((h'.allocators i).filled) (Fs' i) none) ∧
        (heapLists cfg F' As' Fs').Nodup ∧
        (∀ x, x ∈ heapLists cfg F' As' Fs' ↔ x ∈ heapLists cfg F As Fs ++ addrs) ∧
        (∀ a ∈ addrs, a ∈ F' ∨ a ∈ As' (cls a) ∨ a ∈ Fs' (cls a)) ∧
        (∀ i, ∃ pre, As' i = pre ++ As i) ∧
        (∀ i, ∃ pre, Fs' i = pre ++ Fs i) ∧
        (∃ pre, F' = pre ++ F) ∧
        (∀ b, b ∉ addrs → h'.store b = h.store b) := by
  intro addrs
  induction addrs with
  | nil =>
    intro h F As Fs cls hF hAs hFs hnd _ _
    refine ⟨h, F, As, Fs, rfl, hF, hAs, hFs, by simpa using hnd, by simp, by simp,
      fun i => ⟨[], rfl⟩, fun i => ⟨[], rfl⟩, ⟨[], rfl⟩, fun b _ => rfl⟩
  | cons a rest ih =>
    intro h F As Fs cls hF hAs hFs hnd hbm hcls
    obtain ⟨res, seg', hres⟩ :=
      sweep_segment_total (h.store a) (hbm a (List.mem_cons_self a rest))
    obtain ⟨hfbm, hfblocks, hfbs, hflink⟩ := sweep_segment_frame (h.store a) res seg' hres
    obtain ⟨hclsa, hclslt⟩ := hcls a (List.mem_cons_self a rest)
    have hclseg : allocIdx cfg seg' = cls a := by
      rw [allocIdx, hfbs]
      exact hclsa
    have hpermcons : List.Perm (heapLists cfg F As Fs ++ (a :: rest))
        (a :: (heapLists cfg F As Fs ++ rest)) := List.perm_middle
    have hnd' : (a :: (heapLists cfg F As Fs ++ rest)).Nodup := hpermcons.nodup hnd
    have haHL : a ∉ heapLists cfg F As Fs ++ rest := (List.nodup_cons.mp hnd').1
    have haHL1 : a ∉ heapLists cfg F As Fs := fun hx => haHL (List.mem_append_left _ hx)
    have harest : a ∉ rest := fun hx => haHL (List.mem_append_right _ hx)
    have haF : a ∉ F := fun hx => haHL1 (mem_heapLists_of_F hx)
    have haAs : ∀ i, i < cfg.allocaCnt → a ∉ As i := fun i hi hx =>
      haHL1 (mem_heapLists_of_As hi hx)
    have haFs : ∀ i, i < cfg.allocaCnt → a ∉ Fs i := fun i hi hx =>
      haHL1 (mem_heapLists_of_Fs hi hx)
    have hbmrest : ∀ (st : Segment) (b : Nat), b ∈ rest →
        (Function.update h.store a st b).bitmap ≠ [] := by
      intro st b hbr
      rw [Function.update_noteq (by rintro rfl; exact harest hbr) st h.store]
      exact hbm b (List.mem_cons_of_mem a hbr)
    have hclsrest : ∀ (st : Segment) (b : Nat), b ∈ rest →
        allocIdx cfg (Function.update h.store a st b) = cls b ∧
          cls b < cfg.allocaCnt := by
      intro st b hbr
      rw [Function.update_noteq (by rintro rfl; exact harest hbr) st h.store]
      exact hcls b (List.mem_cons_of_mem a hbr)
    cases res with
    | SEGMENT_FREE =>
      obtain ⟨h2, hstepeq, hst, hal, hfr, hsw2⟩ :=
        sweepStep_FREE_ex cfg debug { h with sweep_list := rest.head? } a seg' hres
      dsimp only at hst hal hfr hsw2
      have hsegl : (if debug then clear_segment { seg' with link := h.free }
          else { seg' with link := h.free }).link = h.free := by
        cases debug <;> rfl
      obtain ⟨h', F', As', Fs', hsl, hF', hAs', hFs', hnd'', hmem', hplace', hApre',
          hFspre', hFpre', hframe'⟩ :=
        ih h2 (a :: F) As Fs cls
          (by
            rw [hst, hfr]
            refine ⟨rfl, ?_⟩
            rw [Function.update_same, hsegl]
            exact isChainSeg_update F h.free none haF hF)
          (by
            intro i hi
            rw [hst, hal]
            exact isChainSeg_update (As i) _ none (haAs i hi) (hAs i hi))
          (by
            intro i hi
            rw [hst, hal]
            exact isChainSeg_update (Fs i) _ none (haFs i hi) (hFs i hi))
          (by
            have heq : heapLists cfg (a :: F) As Fs ++ rest =
                a :: (heapLists cfg F As Fs ++ rest) := by
              simp [heapLists]
            rw [heq]
            exact hnd')
          (by intro b hbr; rw [hst]; exact hbmrest _ b hbr)
          (by intro b hbr; rw [hst]; exact hclsrest _ b hbr)
      refine ⟨h', F', As', Fs', ?_, hF', hAs', hFs', hnd'', ?_, ?_, hApre', hFspre', ?_, ?_⟩
      · simp only [sweepList]
        rw [hstepeq]
        exact hsl
      · intro x
        rw [hmem' x]
        have heq : heapLists cfg (a :: F) As Fs ++ rest =
            a :: (heapLists cfg F As Fs ++ rest) := by
          simp [heapLists]
        rw [heq]
        exact hpermcons.mem_iff.symm
      · intro b hbmem
        rcases List.mem_cons.mp hbmem with rfl | hbr
        · obtain ⟨pre, hpre⟩ := hFpre'
          exact Or.inl (hpre ▸ List.mem_append_right pre (List.mem_cons_self b F))
        · exact hplace' b hbr
      · obtain ⟨pre, hpre⟩ := hFpre'
        exact ⟨pre ++ [a], by rw [hpre]; simp⟩
      · intro b hb
        have hbr : b ∉ rest := fun hx => hb (List.mem_cons_of_mem a hx)
        have hba : b ≠ a := fun he => hb (he ▸ List.mem_cons_self a rest)
        rw [hframe' b hbr, hst]
        exact Function.update_noteq hba _ h.store
    | SEGMENT_MIXED =>
      obtain ⟨h2, hstepeq, hst, hal, hfr, hsw2⟩ :=
        sweepStep_MIXED_ex cfg debug { h with sweep_list := rest.head? } a seg' hres
      rw [hclseg] at hst hal
      dsimp only at hst hal hfr hsw2
      have hsegl : (if debug then
          clear_segment_free_blocks
            { seg' with link := (h.allocators (cls a)).active }
          else { seg' with link := (h.allocators (cls a)).active }).link =
          (h.allocators (cls a)).active := by
        cases debug <;> rfl
      have hup : List.Perm ((List.range cfg.allocaCnt).flatMap
            (Function.update As (cls a) (a :: As (cls a))))
          (a :: (List.range cfg.allocaCnt).flatMap As) :=
        flatMap_update_perm As (cls a) a (List.range cfg.allocaCnt)
          (List.nodup_range cfg.allocaCnt) (List.mem_range.mpr hclslt)
      have hperm2 : List.Perm
          (heapLists cfg F (Function.update As (cls a) (a :: As (cls a))) Fs ++ rest)
          (a :: (heapLists cfg F As Fs ++ rest)) := by
        have h1 := perm_insert_block F ((List.range cfg.allocaCnt).flatMap As)
          ((List.range cfg.allocaCnt).flatMap
            (Function.update As (cls a) (a :: As (cls a))))
          ((List.range cfg.allocaCnt).flatMap Fs) a hup
        have h2p := h1.append_right rest
        simpa [heapLists, List.append_assoc] using h2p
      obtain ⟨h', F', As', Fs', hsl, hF', hAs', hFs', hnd'', hmem', hplace', hApre',
          hFspre', hFpre', hframe'⟩ :=
        ih h2 F (Function.update As (cls a) (a :: As (cls a))) Fs cls
          (by
            rw [hst, hfr]
            exact isChainSeg_update F h.free none haF hF)
          (by
            intro i hi
            rw [hst, hal]
            by_cases hie : i = cls a
            · subst hie
              simp only [Function.update_same]
              refine ⟨rfl, ?_⟩
              rw [Function.update_same, hsegl]
              exact isChainSeg_update (As (cls a)) _ none (haAs (cls a) hi) (hAs (cls a) hi)
            · simp only [Function.update_noteq hie]
              exact isChainSeg_update (As i) _ none (haAs i hi) (hAs i hi))
          (by
            intro i hi
            rw [hst, hal]
            by_cases hie : i = cls a
            · subst hie
              simp only [Function.update_same]
              exact isChainSeg_update (Fs (cls a)) _ none (haFs (cls a) hi) (hFs (cls a) hi)
            · simp only [Function.update_noteq hie]
              exact isChainSeg_update (Fs i) _ none (haFs i hi) (hFs i hi))
          (hperm2.symm.nodup hnd')
          (by intro b hbr; rw [hst]; exact hbmrest _ b hbr)
          (by intro b hbr; rw [hst]; exact hclsrest _ b hbr)
      refine ⟨h', F', As', Fs', ?_, hF', hAs', hFs', hnd'', ?_, ?_, ?_, hFspre', hFpre', ?_⟩
      · simp only [sweepList]
        rw [hstepeq]
        exact hsl
      · intro x
        rw [hmem' x, hperm2.mem_iff]
        exact hpermcons.mem_iff.symm
      · intro b hbmem
        rcases List.mem_cons.mp hbmem with rfl | hbr
        · obtain ⟨pre, hpre⟩ := hApre' (cls b)
          rw [Function.update_same] at hpre
          exact Or.inr (Or.inl
            (hpre ▸ List.mem_append_right pre (List.mem_cons_self b (As (cls b)))))
        · exact hplace' b hbr
      · intro i
        obtain ⟨pre, hpre⟩ := hApre' i
        by_cases hie : i = cls a
        · subst hie
          rw [Function.update_same] at hpre
          exact ⟨pre ++ [a], by rw [hpre]; simp⟩
        · rw [Function.update_noteq hie] at hpre
          exact ⟨pre, hpre⟩
      · intro b hb
        have hbr : b ∉ rest := fun hx => hb (List.mem_cons_of_mem a hx)
        have hba : b ≠ a := fun he => hb (he ▸ List.mem_cons_self a rest)
        rw [hframe' b hbr, hst]
        exact Function.update_noteq hba _ h.store
    | SEGMENT_FILLED =>
      obtain ⟨h2, hstepeq, hst, hal, hfr, hsw2⟩ :=
        sweepStep_FILLED_ex cfg debug { h with sweep_list := rest.head? } a seg' hres
      rw [hclseg] at hst hal
      dsimp only at hst hal hfr hsw2
      have hup : List.Perm ((List.range cfg.allocaCnt).flatMap
            (Function.update Fs (cls a) (a :: Fs (cls a))))
          (a :: (List.range cfg.allocaCnt).flatMap Fs) :=
        flatMap_update_perm Fs (cls a) a (List.range cfg.allocaCnt)
          (List.nodup_range cfg.allocaCnt) (List.mem_range.mpr hclslt)
      have hperm2 : List.Perm
          (heapLists cfg F As (Function.update Fs (cls a) (a :: Fs (cls a))) ++ rest)
          (a :: (heapLists cfg F As Fs ++ rest)) := by
        have h1 := perm_insert_block (F ++ (List.range cfg.allocaCnt).flatMap As)
          ((List.range cfg.allocaCnt).flatMap Fs)
          ((List.range cfg.allocaCnt).flatMap
            (Function.update Fs (cls a) (a :: Fs (cls a))))
          [] a hup
        have h2p := h1.append_right rest
        simpa [heapLists, List.append_assoc] using h2p
      obtain ⟨h', F', As', Fs', hsl, hF', hAs', hFs', hnd'', hmem', hplace', hApre',
          hFspre', hFpre', hframe'⟩ :=
        ih h2 F As (Function.update Fs (cls a) (a :: Fs (cls a))) cls
          (by
            rw [hst, hfr]
            exact isChainSeg_update F h.free none haF hF)
          (by
            intro i hi
            rw [hst, hal]
            by_cases hie : i = cls a
            · subst hie
              simp only [Function.update_same]
              exact isChainSeg_update (As (cls a)) _ none (haAs (cls a) hi) (hAs (cls a) hi)
            · simp only [Function.update_noteq hie]
              exact isChainSeg_update (As i) _ none (haAs i hi) (hAs i hi))
          (by
            intro i hi
            rw [hst, hal]
            by_cases hie : i = cls a
            · subst hie
              simp only [Function.update_same]
              refine ⟨rfl, ?_⟩
              rw [Function.update_same]
              show isChainSeg _ (h.allocators (cls a)).filled (Fs (cls a)) none
              exact isChainSeg_update (Fs (cls a)) _ none (haFs (cls a) hi) (hFs (cls a) hi)
            · simp only [Function.update_noteq hie]
              exact isChainSeg_update (Fs i) _ none (haFs i hi) (hFs i hi))
          (hperm2.symm.nodup hnd')
          (by intro b hbr; rw [hst]; exact hbmrest _ b hbr)
          (by intro b hbr; rw [hst]; exact hclsrest _ b hbr)
      refine ⟨h', F', As', Fs', ?_, hF', hAs', hFs', hnd'', ?_, ?_, hApre', ?_, hFpre', ?_⟩
      · simp only [sweepList]
        rw [hstepeq]
        exact hsl
      · intro x
        rw [hmem' x, hperm2.mem_iff]
        exact hpermcons.mem_iff.symm
      · intro b hbmem
        rcases List.mem_cons.mp hbmem with rfl | hbr
        · obtain ⟨pre, hpre⟩ := hFspre' (cls b)
          rw [Function.update_same] at hpre
          exact Or.inr (Or.inr
            (hpre ▸ List.mem_append_right pre (List.mem_cons_self b (Fs (cls b)))))
        · exact hplace' b hbr
      · intro i
        obtain ⟨pre, hpre⟩ := hFspre' i
        by_cases hie : i = cls a
        · subst hie
          rw [Function.update_same] at hpre
          exact ⟨pre ++ [a], by rw [hpre]; simp⟩
        · rw [Function.update_noteq hie] at hpre
          exact ⟨pre, hpre⟩
      · intro b hb
        have hbr : b ∉ rest := fun hx => hb (List.mem_cons_of_mem a hx)
        have hba : b ≠ a := fun he => hb (he ▸ List.mem_cons_self a rest)
        rw [hframe' b hbr, hst]
        exact Function.update_noteq hba _ h.store

/-- In a duplicate-free heap population, the free list and any class's
active and filled lists are pairwise disjoint. -/
theorem heapLists_disjoint {cfg : Config} {F : List Nat} {As Fs : Nat → List Nat}
    (hnd : (heapLists cfg F As Fs).Nodup) {i a : Nat} (hi : i < cfg.allocaCnt) :
    ¬(a ∈ F ∧ a ∈ As i) ∧ ¬(a ∈ F ∧ a ∈ Fs i) ∧ ¬(a ∈ As i ∧ a ∈ Fs i) := by
  have hnd1 : ((F ++ (List.range cfg.allocaCnt).flatMap As) ++
      (List.range cfg.allocaCnt).flatMap Fs).Nodup := hnd
  have hd1 : List.Disjoint (F ++ (List.range cfg.allocaCnt).flatMap As)
      ((List.range cfg.allocaCnt).flatMap Fs) := List.disjoint_of_nodup_append hnd1
  have hd2 : List.Disjoint F ((List.range cfg.allocaCnt).flatMap As) :=
    List.disjoint_of_nodup_append hnd1.of_append_left
  have hmemA : a ∈ As i → a ∈ (List.range cfg.allocaCnt).flatMap As := fun hx =>
    List.mem_flatMap.mpr ⟨i, List.mem_range.mpr hi, hx⟩
  have hmemF : a ∈ Fs i → a ∈ (List.range cfg.allocaCnt).flatMap Fs := fun hx =>
    List.mem_flatMap.mpr ⟨i, List.mem_range.mpr hi, hx⟩
  refine ⟨?_, ?_, ?_⟩
  · rintro ⟨h1, h2⟩
    exact hd2 h1 (hmemA h2)
  · rintro ⟨h1, h2⟩
    exact hd1 (List.mem_append_left _ h1) (hmemF h2)
  · rintro ⟨h1, h2⟩
    exact hd1 (List.mem_append_right _ (hmemA h1)) (hmemF h2)

/-- C3: after a full sweep pass, every segment that was on any allocator's
filled list before the pass is reachable from exactly one of the global
free list, the active list of its own size class, or the filled list of its
own size class; and every segment on an active list before the pass is
unchanged and still on its active list (the new active list extends the old
one, whose segments' stores are untouched). -/
theorem C3_partition_completeness (cfg : Config) (debug : Bool) (pfuel fuel : Nat)
    (h : Heap) (F : List Nat) (As Fs : Nat → List Nat)
    (hsw : h.sweep_list = none)
    (hFchain : isChainSeg h.store h.free F none)
    (hAchains : ∀ i, i < cfg.allocaCnt →
      isChainSeg h.store ((h.allocators i).active) (As i) none)
    (hFchains : ∀ i, i < cfg.allocaCnt →
      isChainSeg h.store ((h.allocators i).filled) (Fs i) none)
    (hnd : (heapLists cfg F As Fs).Nodup)
    (hbm : ∀ i, i < cfg.allocaCnt → ∀ a ∈ Fs i, (h.store a).bitmap ≠ [])
    (hclsOK : ∀ i, i < cfg.allocaCnt → ∀ a ∈ Fs i, allocIdx cfg (h.store a) = i)
    (hpf : ∀ i, i < cfg.allocaCnt → (Fs i).length ≤ pfuel + 1)
    (hfl : ((List.range cfg.allocaCnt).flatMap Fs).length ≤ fuel) :
    ∃ (h' : Heap) (F' : List Nat) (As' Fs' : Nat → List Nat),
      nonmoving_sweep cfg debug pfuel fuel h = some h' ∧
      isChainSeg h'.store h'.free F' none ∧
      (∀ i, i < cfg.allocaCnt →
        isChainSeg h'.store ((h'.allocators i).active) (As' i) none) ∧
      (∀ i, i < cfg.allocaCnt →
        isChainSeg h'.store ((h'.allocators i).filled) (Fs' i) none) ∧
      (∀ i, i < cfg.allocaCnt → ∀ a ∈ Fs i,
        (a ∈ F' ∧ a ∉ As' i ∧ a ∉ Fs' i) ∨
        (a ∉ F' ∧ a ∈ As' i ∧ a ∉ Fs' i) ∨
        (a ∉ F' ∧ a ∉ As' i ∧ a ∈ Fs' i)) ∧
      (∀ i, i < cfg.allocaCnt → ∃ pre, As' i = pre ++ As i) ∧
      (∀ i, i < cfg.allocaCnt → ∀ a ∈ As i, h'.store a = h.store a) := by
  have hndFsJ : ((List.range cfg.allocaCnt).flatMap Fs).Nodup := hnd.of_append_right
  obtain ⟨h1, hp, hchainSweep, hfilnone, hactpres, hframe1, hfields1, hfree1⟩ :=
    prepare_sweep_spec cfg pfuel h Fs hsw hFchains hpf hndFsJ
  have hpermaddr : List.Perm ((List.range cfg.allocaCnt).reverse.flatMap Fs)
      ((List.range cfg.allocaCnt).flatMap Fs) :=
    (List.reverse_perm (List.range cfg.allocaCnt)).flatMap_right Fs
  have hndaddrs : ((List.range cfg.allocaCnt).reverse.flatMap Fs).Nodup :=
    hpermaddr.symm.nodup hndFsJ
  have hmemaddr : ∀ b, b ∈ (List.range cfg.allocaCnt).reverse.flatMap Fs ↔
      b ∈ (List.range cfg.allocaCnt).flatMap Fs := fun b => hpermaddr.mem_iff
  have hdisjF : List.Disjoint (F ++ (List.range cfg.allocaCnt).flatMap As)
      ((List.range cfg.allocaCnt).flatMap Fs) := List.disjoint_of_nodup_append hnd
  have hloop := loop_eq_sweepList_aux cfg debug
    ((List.range cfg.allocaCnt).reverse.flatMap Fs) h1 fuel hchainSweep hndaddrs
    (by rw [hpermaddr.length_eq]; exact hfl)
  obtain ⟨h', F', As', Fs', hsl, hF', hAs', hFs', hnd'', hmem', hplace', hApre',
      hFspre', hFpre', hframe'⟩ :=
    sweepList_spec cfg debug ((List.range cfg.allocaCnt).reverse.flatMap Fs) h1
      F As (fun _ => []) (fun b => allocIdx cfg (h.store b))
      (by
        rw [hfree1]
        refine isChainSeg_congr F h.free none ?_ hFchain
        intro b hb
        exact (hframe1 b (fun hbf => hdisjF (List.mem_append_left _ hb) hbf)).symm)
      (by
        intro i hi
        rw [hactpres i]
        refine isChainSeg_congr (As i) _ none ?_ (hAchains i hi)
        intro b hb
        refine (hframe1 b (fun hbf => hdisjF ?_ hbf)).symm
        exact List.mem_append_right _ (List.mem_flatMap.mpr ⟨i, List.mem_range.mpr hi, hb⟩))
      (by
        intro i hi
        rw [hfilnone i hi]
        rfl)
      (by
        have hempty : (List.range cfg.allocaCnt).flatMap (fun _ => ([] : List Nat)) = [] := by
          simp
        have hperm3 : List.Perm
            (heapLists cfg F As (fun _ => []) ++
              (List.range cfg.allocaCnt).reverse.flatMap Fs)
            (heapLists cfg F As Fs) := by
          have h4 : heapLists cfg F As (fun _ => []) =
              F ++ (List.range cfg.allocaCnt).flatMap As := by
            simp [heapLists, hempty]
          rw [h4]
          have h5 := hpermaddr.append_left (F ++ (List.range cfg.allocaCnt).flatMap As)
          have h6 : heapLists cfg F As Fs =
              (F ++ (List.range cfg.allocaCnt).flatMap As) ++
                (List.range cfg.allocaCnt).flatMap Fs := by
            simp [heapLists, List.append_assoc]
          rw [h6]
          simpa [List.append_assoc] using h5
        exact hperm3.symm.nodup hnd)
      (by
        intro b hb
        rw [(hfields1 b).2.1]
        obtain ⟨i, hi, hbi⟩ := List.mem_flatMap.mp ((hmemaddr b).mp hb)
        exact hbm i (List.mem_range.mp hi) b hbi)
      (by
        intro b hb
        obtain ⟨i, hi, hbi⟩ := List.mem_flatMap.mp ((hmemaddr b).mp hb)
        have hcl : allocIdx cfg (h1.store b) = allocIdx cfg (h.store b) := by
          rw [allocIdx, allocIdx, (hfields1 b).1]
        refine ⟨hcl, ?_⟩
        show allocIdx cfg (h.store b) < cfg.allocaCnt
        rw [hclsOK i (List.mem_range.mp hi) b hbi]
        exact List.mem_range.mp hi)
  refine ⟨h', F', As', Fs', ?_, hF', hAs', hFs', ?_, ?_, ?_⟩
  · simp only [nonmoving_sweep, hp]
    rw [hloop]
    exact hsl
  · intro i hi a ha
    have haddr : a ∈ (List.range cfg.allocaCnt).reverse.flatMap Fs :=
      (hmemaddr a).mpr (List.mem_flatMap.mpr ⟨i, List.mem_range.mpr hi, ha⟩)
    have hplaces := hplace' a haddr
    have hclsi : allocIdx cfg (h.store a) = i := hclsOK i hi a ha
    rw [hclsi] at hplaces
    obtain ⟨hdA, hdF, hdAF⟩ := heapLists_disjoint hnd'' hi (a := a)
    rcases hplaces with hmF | hmA | hmFs
    · exact Or.inl ⟨hmF, fun hx => hdA ⟨hmF, hx⟩, fun hx => hdF ⟨hmF, hx⟩⟩
    · exact Or.inr (Or.inl ⟨fun hx => hdA ⟨hx, hmA⟩, hmA, fun hx => hdAF ⟨hmA, hx⟩⟩)
    · exact Or.inr (Or.inr ⟨fun hx => hdF ⟨hx, hmFs⟩, fun hx => hdAF ⟨hx, hmFs⟩, hmFs⟩)
  · intro i hi
    exact hApre' i
  · intro i hi a ha
    have hanotF : a ∉ (List.range cfg.allocaCnt).flatMap Fs := fun hx =>
      hdisjF (List.mem_append_right _
        (List.mem_flatMap.mpr ⟨i, List.mem_range.mpr hi, ha⟩)) hx
    have hanotaddr : a ∉ (List.range cfg.allocaCnt).reverse.flatMap Fs := fun hx =>
      hanotF ((hmemaddr a).mp hx)
    rw [hframe' a hanotaddr]
    exact hframe1 a hanotF

/-- C3 witness: a one-class heap with one filled, fully live segment sweeps
successfully. -/
theorem C3_witness :
    (nonmoving_sweep ⟨1, 3⟩ true 1 1
      ⟨fun _ => ⟨3, [true], [[5]], 0, 0, none⟩,
        fun _ => ⟨none, some 0⟩, none, none⟩).isSome = true := by
  obtain ⟨h', F', As', Fs', hs, -, -, -, -, -, -⟩ :=
    C3_partition_completeness ⟨1, 3⟩ true 1 1
      ⟨fun _ => ⟨3, [true], [[5]], 0, 0, none⟩, fun _ => ⟨none, some 0⟩, none, none⟩
      [] (fun _ => []) (fun _ => [0]) rfl rfl
      (by intro i hi; rfl)
      (by
        intro i hi
        have hi' : i < 1 := hi
        have hi0 : i = 0 := by omega
        subst hi0
        exact ⟨rfl, rfl⟩)
      (by decide)
      (by
        intro i hi a ha
        have ha' : a ∈ [0] := ha
        simp at ha'
        subst ha'
        simp)
      (by
        intro i hi a ha
        have hi' : i < 1 := hi
        have hi0 : i = 0 := by omega
        subst hi0
        rfl)
      (by intro i hi; simp)
      (by decide)
  rw [hs]
  rfl

/-- Mapping every entry of an all-unset bitmap to unset leaves it
unchanged. -/
theorem map_const_false_of_all {l : List Bool} (h : ∀ b ∈ l, b = false) :
    l.map (fun _ => false) = l := by
  induction l with
  | nil => rfl
  | cons b rest ih =>
    have hb := h b (List.mem_cons_self b rest)
    subst hb
    rw [List.map_cons, ih (fun x hx => h x (List.mem_cons_of_mem _ hx))]

/-- A segment classified free has an all-unset bitmap. -/
theorem bitmap_all_false_of_FREE (seg : Segment) (seg' : Segment)
    (hres : nonmoving_sweep_segment seg = some (.SEGMENT_FREE, seg')) :
    ∀ b ∈ seg.bitmap, b = false := by
  obtain ⟨-, hresv⟩ := sweep_segment_inv seg .SEGMENT_FREE seg' hres
  intro b hb
  cases hfl : (seg.bitmap.any fun x => x) with
  | false =>
    have := List.any_eq_false.mp hfl b hb
    cases b
    · rfl
    · exact absurd rfl this
  | true =>
    exfalso
    rw [hfl] at hresv
    cases hff : (seg.bitmap.any fun x => !x) <;> rw [hff] at hresv <;> simp at hresv

/-- C7: in a DEBUG build, sweeping a segment classified free zeroes exactly
the payload bytes: every block's bytes become zero while the bitmap is
unchanged (it was already all-zero, so the `memset` over bitmap plus
payload leaves the bitmap bytes equal) and no other segment is written; in
a release build the scrubbing is skipped entirely and neither payload nor
bitmap changes. -/
theorem C7_free_scrub (cfg : Config) (h : Heap) (a : Nat) (seg' : Segment)
    (hres : nonmoving_sweep_segment (h.store a) = some (.SEGMENT_FREE, seg')) :
    (∃ h2, sweepStep cfg true h a = some h2 ∧
      (h2.store a).blocks = (h.store a).blocks.map (fun bl => bl.map fun _ => 0) ∧
      (h2.store a).bitmap = (h.store a).bitmap ∧
      (∀ b, b ≠ a → h2.store b = h.store b)) ∧
    (∃ h2, sweepStep cfg false h a = some h2 ∧
      (h2.store a).blocks = (h.store a).blocks ∧
      (h2.store a).bitmap = (h.store a).bitmap ∧
      (∀ b, b ≠ a → h2.store b = h.store b)) := by
  obtain ⟨hfbm, hfblocks, hfbs, hflink⟩ := sweep_segment_frame (h.store a) _ seg' hres
  have hall : ∀ b ∈ (h.store a).bitmap, b = false := bitmap_all_false_of_FREE _ seg' hres
  have hallseg : ∀ b ∈ seg'.bitmap, b = false := by rw [hfbm]; exact hall
  constructor
  · obtain ⟨h2, hstep, hst, -, -, -⟩ := sweepStep_FREE_ex cfg true h a seg' hres
    refine ⟨h2, hstep, ?_, ?_, ?_⟩
    · rw [hst, Function.update_same]
      show (clear_segment { seg' with link := h.free }).blocks =
        (h.store a).blocks.map (fun bl => bl.map fun _ => 0)
      rw [clear_segment]
      show seg'.blocks.map (fun bl => bl.map fun _ => 0) = _
      rw [hfblocks]
    · rw [hst, Function.update_same]
      show (clear_segment { seg' with link := h.free }).bitmap = (h.store a).bitmap
      rw [clear_segment]
      show seg'.bitmap.map (fun _ => false) = _
      rw [map_const_false_of_all hallseg, hfbm]
    · intro b hb
      rw [hst]
      exact Function.update_noteq hb _ h.store
  · obtain ⟨h2, hstep, hst, -, -, -⟩ := sweepStep_FREE_ex cfg false h a seg' hres
    refine ⟨h2, hstep, ?_, ?_, ?_⟩
    · rw [hst, Function.update_same]
      show seg'.blocks = (h.store a).blocks
      exact hfblocks
    · rw [hst, Function.update_same]
      show seg'.bitmap = (h.store a).bitmap
      exact hfbm
    · intro b hb
      rw [hst]
      exact Function.update_noteq hb _ h.store

/-- C7 witness: a free one-block segment is scrubbed in a DEBUG build and
untouched in a release build. -/
theorem C7_witness :
    (sweepStep ⟨1, 3⟩ true
      ⟨fun _ => ⟨3, [false], [[7]], 0, 0, none⟩, fun _ => ⟨none, none⟩, none, none⟩
      0).isSome = true ∧
    (sweepStep ⟨1, 3⟩ false
      ⟨fun _ => ⟨3, [false], [[7]], 0, 0, none⟩, fun _ => ⟨none, none⟩, none, none⟩
      0).isSome = true := by
  obtain ⟨⟨h2, hs2, -, -, -⟩, ⟨h3, hs3, -, -, -⟩⟩ := C7_free_scrub ⟨1, 3⟩
    ⟨fun _ => ⟨3, [false], [[7]], 0, 0, none⟩, fun _ => ⟨none, none⟩, none, none⟩
    0 ⟨3, [false], [[7]], 0, 0, none⟩ (by decide)
  exact ⟨by rw [hs2]; rfl, by rw [hs3]; rfl⟩

/-- The `clear_segment_free_blocks` loop, blockwise: the block at an index
below the block count keeps its bytes when its mark bit is set and has all
its bytes zeroed when the bit is unset. -/
theorem clearFreeGo_getD :
    ∀ (ms : List Bool) (bs : List (List Nat)) (i : Nat), i < ms.length → i < bs.length →
      (clearFreeGo ms bs).getD i [] =
        (if ms.getD i false then bs.getD i [] else (bs.getD i []).map fun _ => 0) := by
  intro ms
  induction ms with
  | nil => intro bs i hi _; simp at hi
  | cons m ms' ih =>
    intro bs i hmi hbi
    cases bs with
    | nil => simp at hbi
    | cons b bs' =>
      cases i with
      | zero => cases m <;> simp [clearFreeGo]
      | succ j =>
        have h1 : (clearFreeGo (m :: ms') (b :: bs')).getD (j + 1) [] =
            (clearFreeGo ms' bs').getD j [] := by
          simp [clearFreeGo]
        rw [h1, ih bs' j (by simpa using hmi) (by simpa using hbi)]
        simp

/-- C8: in a DEBUG build, sweeping a partially-filled segment zeroes the
bytes of exactly the blocks whose mark bit is unset and leaves marked
blocks' bytes and the bitmap unchanged; sweeping a filled segment clears no
bytes at all (DEBUG or not). -/
theorem C8_partial_scrub (cfg : Config) (h : Heap) (a : Nat) :
    (∀ seg', nonmoving_sweep_segment (h.store a) = some (.SEGMENT_MIXED, seg') →
      ∃ h2, sweepStep cfg true h a = some h2 ∧
        (h2.store a).bitmap = (h.store a).bitmap ∧
        (∀ i, i < (h.store a).bitmap.length → i < (h.store a).blocks.length →
          (h2.store a).blocks.getD i [] =
            (if (h.store a).bitmap.getD i false then (h.store a).blocks.getD i []
             else ((h.store a).blocks.getD i []).map fun _ => 0)) ∧
        (∀ b, b ≠ a → h2.store b = h.store b)) ∧
    (∀ seg' (debug : Bool),
      nonmoving_sweep_segment (h.store a) = some (.SEGMENT_FILLED, seg') →
      ∃ h2, sweepStep cfg debug h a = some h2 ∧
        (h2.store a).blocks = (h.store a).blocks ∧
        (h2.store a).bitmap = (h.store a).bitmap ∧
        (∀ b, b ≠ a → h2.store b = h.store b)) := by
  constructor
  · intro seg' hres
    obtain ⟨hfbm, hfblocks, hfbs, hflink⟩ := sweep_segment_frame (h.store a) _ seg' hres
    obtain ⟨h2, hstep, hst, -, -, -⟩ := sweepStep_MIXED_ex cfg true h a seg' hres
    have hsb : (h2.store a).blocks =
        clearFreeGo (h.store a).bitmap (h.store a).blocks := by
      rw [hst, Function.update_same]
      show (clear_segment_free_blocks
        { seg' with link := (h.allocators (allocIdx cfg seg')).active }).blocks = _
      rw [clear_segment_free_blocks]
      show clearFreeGo seg'.bitmap seg'.blocks = _
      rw [hfbm, hfblocks]
    refine ⟨h2, hstep, ?_, ?_, ?_⟩
    · rw [hst, Function.update_same]
      show seg'.bitmap = (h.store a).bitmap
      exact hfbm
    · intro i hib hibl
      rw [hsb]
      exact clearFreeGo_getD (h.store a).bitmap (h.store a).blocks i hib hibl
    · intro b hb
      rw [hst]
      exact Function.update_noteq hb _ h.store
  · intro seg' debug hres
    obtain ⟨hfbm, hfblocks, hfbs, hflink⟩ := sweep_segment_frame (h.store a) _ seg' hres
    obtain ⟨h2, hstep, hst, -, -, -⟩ := sweepStep_FILLED_ex cfg debug h a seg' hres
    refine ⟨h2, hstep, ?_, ?_, ?_⟩
    · rw [hst, Function.update_same]
      show seg'.blocks = (h.store a).blocks
      exact hfblocks
    · rw [hst, Function.update_same]
      show seg'.bitmap = (h.store a).bitmap
      exact hfbm
    · intro b hb
      rw [hst]
      exact Function.update_noteq hb _ h.store

/-- C8 witness: a mixed two-block segment is selectively scrubbed in a
DEBUG build, and a filled segment is re-filed without clearing. -/
theorem C8_witness :
    (sweepStep ⟨1, 3⟩ true
      ⟨fun _ => ⟨3, [true, false], [[1], [2]], 0, 0, none⟩,
        fun _ => ⟨none, none⟩, none, none⟩ 0).isSome = true ∧
    (sweepStep ⟨1, 3⟩ false
      ⟨fun _ => ⟨3, [true], [[9]], 0, 0, none⟩,
        fun _ => ⟨none, none⟩, none, none⟩ 0).isSome = true := by
  obtain ⟨hmix, -⟩ := C8_partial_scrub ⟨1, 3⟩
    ⟨fun _ => ⟨3, [true, false], [[1], [2]], 0, 0, none⟩,
      fun _ => ⟨none, none⟩, none, none⟩ 0
  obtain ⟨-, hfil⟩ := C8_partial_scrub ⟨1, 3⟩
    ⟨fun _ => ⟨3, [true], [[9]], 0, 0, none⟩, fun _ => ⟨none, none⟩, none, none⟩ 0
  obtain ⟨h2, hs2, -, -, -⟩ := hmix ⟨3, [true, false], [[1], [2]], 1, 1, none⟩ (by decide)
  obtain ⟨h3, hs3, -, -, -⟩ := hfil ⟨3, [true], [[9]], 0, 0, none⟩ false (by decide)
  exact ⟨by rw [hs2]; rfl, by rw [hs3]; rfl⟩

end GhcSweep
